import Mathlib

/-!
Shallow embedding of the dialogue-bot intent-understanding code
(`dialogue_bot` package) and proofs about its ranking, context and
entity-handling functions.  Scores (Python floats) are modelled as
rationals; Python lists as `List`, Python sets as membership over lists
or `Finset`s; regex matchers are abstracted as boolean predicates on
strings.
-/

namespace DialogueBot

/-- `RankingScore` from `models/utils.py`: a reference id with a score. -/
structure RankingScore where
  ref_id : String
  score : ℚ
deriving DecidableEq, Repr

/-- The second loop of `complete_ranking`: append a default-scored entry for
each id not yet present, tracking seen ids in `res_ids`. -/
def add_missing (res_ids : List String) (added_conf : ℚ) : List String → List RankingScore
  | [] => []
  | id :: rest =>
    if id ∈ res_ids then add_missing res_ids added_conf rest
    else RankingScore.mk id added_conf :: add_missing (res_ids ++ [id]) added_conf rest

/-- `complete_ranking` from `models/utils.py`: keep the entries whose id is in
`ids` (first loop), then append a default-scored entry for every id of `ids`
that has no entry yet (second loop). -/
def complete_ranking (ranking : List RankingScore) (ids : List String) (added_conf : ℚ) :
    List RankingScore :=
  (ranking.filter (fun s => decide (s.ref_id ∈ ids)))
    ++ add_missing ((ranking.filter (fun s => decide (s.ref_id ∈ ids))).map (fun s => s.ref_id))
        added_conf ids

/-- `TTLContext` from `models/context.py`.  `lifetime = none` models Python
`None` (immortal context); `remaining` mirrors `lifetime` at construction. -/
structure TTLContext where
  name : String
  lifetime : Option ℤ
  remaining : Option ℤ
  lived : ℕ
deriving DecidableEq, Repr

/-- `TTLContext.__init__`. -/
def TTLContext.init (name : String) (lifetime : Option ℤ) : TTLContext :=
  ⟨name, lifetime, lifetime, 0⟩

/-- `TTLContext.live`: increment `lived`; when the lifetime is finite,
decrement `remaining`, clamped below at `-1`. -/
def TTLContext.live (c : TTLContext) : TTLContext :=
  { c with
    lived := c.lived + 1,
    remaining :=
      match c.lifetime with
      | none => c.remaining
      | some _ => c.remaining.map (fun r => max (-1) (r - 1)) }

/-- `TTLContext.is_dead`: immortal contexts are never dead; otherwise dead
iff `remaining < 0`.  (When the lifetime is finite, `remaining` is always
`some _` for contexts built by `init` and evolved by `live`.) -/
def TTLContext.is_dead (c : TTLContext) : Bool :=
  match c.lifetime, c.remaining with
  | none, _ => false
  | some _, none => false
  | some _, some r => decide (r < 0)

/-- `live` never changes the lifetime. -/
theorem TTLContext.iterate_live_lifetime (c : TTLContext) (n : ℕ) :
    (TTLContext.live^[n] c).lifetime = c.lifetime := by
  induction n with
  | zero => rfl
  | succ n ih => rw [Function.iterate_succ_apply']; exact ih

/-- Remaining lifetime after `n` live steps on a finite-lifetime context. -/
theorem TTLContext.iterate_live_remaining (name : String) (L : ℤ) (hL : 0 ≤ L) (n : ℕ) :
    (TTLContext.live^[n] (TTLContext.init name (some L))).remaining
      = some (max (-1) (L - n)) := by
  induction n with
  | zero =>
    simp only [Function.iterate_zero_apply, TTLContext.init, Nat.cast_zero, sub_zero]
    congr 1
    have h1 : (-1 : ℤ) ≤ L := by omega
    exact (max_eq_right h1).symm
  | succ n ih =>
    rw [Function.iterate_succ_apply', TTLContext.live]
    have hl : (TTLContext.live^[n] (TTLContext.init name (some L))).lifetime = some L := by
      rw [TTLContext.iterate_live_lifetime]; rfl
    rw [hl]
    simp only [ih, Option.map_some']
    congr 1
    rcases le_total (L - (n : ℤ)) (-1) with h | h
    · rw [max_eq_left h]
      have h1 : (-1 : ℤ) - 1 ≤ -1 := by omega
      have h2 : L - ((n : ℕ) + 1 : ℕ) ≤ (-1 : ℤ) := by push_cast; omega
      rw [max_eq_left h1, max_eq_left h2]
    · rw [max_eq_right h]
      congr 1
      push_cast
      ring

/-- **C7.** A context constructed with finite lifetime `L ≥ 0` has remaining
lifetime `max (-1) (L - n)` after `n` live steps (each step decrements by one,
clamped at `-1`), is dead exactly when `n ≥ L + 1`, and a context constructed
with lifetime `None` is never dead. -/
theorem ttl_context_lifetime_spec (name : String) (L : ℤ) (hL : 0 ≤ L) (n : ℕ) :
    ((TTLContext.live^[n] (TTLContext.init name (some L))).remaining
        = some (max (-1) (L - n)))
    ∧ ((TTLContext.live^[n] (TTLContext.init name (some L))).is_dead = true
        ↔ L + 1 ≤ (n : ℤ))
    ∧ (TTLContext.live^[n] (TTLContext.init name none)).is_dead = false := by
  refine ⟨TTLContext.iterate_live_remaining name L hL n, ?_, ?_⟩
  · rw [TTLContext.is_dead]
    have hlife : (TTLContext.live^[n] (TTLContext.init name (some L))).lifetime = some L :=
      TTLContext.iterate_live_lifetime _ n
    rw [hlife, TTLContext.iterate_live_remaining name L hL n]
    simp only [decide_eq_true_eq]
    omega
  · rw [TTLContext.is_dead]
    have hlife : (TTLContext.live^[n] (TTLContext.init name none)).lifetime = none :=
      TTLContext.iterate_live_lifetime _ n
    rw [hlife]

/-- Concrete instantiation of `ttl_context_lifetime_spec` at lifetime 2 and 3
live steps. -/
theorem ttl_context_lifetime_spec_witness :
    (0 : ℤ) ≤ 2
    ∧ (((TTLContext.live^[3] (TTLContext.init "c" (some 2))).remaining
          = some (max (-1) ((2 : ℤ) - ((3 : ℕ) : ℤ))))
        ∧ ((TTLContext.live^[3] (TTLContext.init "c" (some 2))).is_dead = true
            ↔ (2 : ℤ) + 1 ≤ ((3 : ℕ) : ℤ))
        ∧ (TTLContext.live^[3] (TTLContext.init "c" none)).is_dead = false) :=
  ⟨by norm_num, ttl_context_lifetime_spec "c" 2 (by norm_num) 3⟩

/-- Under a duplicate-free `ids`, the second loop of `complete_ranking` is a
filter: it appends a default entry for exactly the ids not already seen. -/
theorem add_missing_eq_filter (c : ℚ) (ids : List String) (h2 : ids.Nodup) :
    ∀ res_ids, add_missing res_ids c ids
      = (ids.filter (fun id => decide (id ∉ res_ids))).map (fun id => RankingScore.mk id c) := by
  induction ids with
  | nil => intro _; rfl
  | cons id rest ih =>
    intro res_ids
    obtain ⟨hid, hrest⟩ := List.nodup_cons.mp h2
    by_cases h : id ∈ res_ids
    · rw [add_missing, if_pos h, ih hrest]
      simp [h]
    · rw [add_missing, if_neg h, ih hrest]
      have hcong : rest.filter (fun x => decide (x ∉ res_ids ++ [id]))
          = rest.filter (fun x => decide (x ∉ res_ids)) := by
        apply List.filter_congr
        intro x hx
        have : x ≠ id := fun he => hid (he ▸ hx)
        simp [List.mem_append, this]
      rw [hcong]
      simp [h]

/-- **C3 (amended).** When the input ranking has duplicate-free ids and `ids`
is duplicate-free, `complete_ranking` returns exactly one score per id of
`ids` (its ids are a permutation of `ids`), preserves every input entry whose
id is in `ids`, scores every id absent from the input ranking with the
default `0`, and contains nothing beyond input entries and default entries. -/
theorem complete_ranking_spec (ranking : List RankingScore) (ids : List String)
    (h1 : (ranking.map (fun s => s.ref_id)).Nodup) (h2 : ids.Nodup) :
    List.Perm ((complete_ranking ranking ids 0).map (fun s => s.ref_id)) ids
    ∧ (∀ s ∈ ranking, s.ref_id ∈ ids → s ∈ complete_ranking ranking ids 0)
    ∧ (∀ s ∈ complete_ranking ranking ids 0,
        s ∈ ranking ∨ (s.score = 0 ∧ s.ref_id ∉ ranking.map (fun t => t.ref_id)))
    ∧ (∀ id ∈ ids, id ∉ ranking.map (fun t => t.ref_id) →
        RankingScore.mk id 0 ∈ complete_ranking ranking ids 0) := by
  have hme := add_missing_eq_filter 0 ids h2
      ((ranking.filter (fun s => decide (s.ref_id ∈ ids))).map (fun s => s.ref_id))
  have hkept_sub : ∀ x, x ∈ ((ranking.filter (fun s => decide (s.ref_id ∈ ids))).map
      (fun s => s.ref_id)) → x ∈ ids := by
    intro x hx
    obtain ⟨s, hs, rfl⟩ := List.mem_map.mp hx
    exact of_decide_eq_true (List.mem_filter.mp hs).2
  have hkept_ran : ∀ x, x ∈ ((ranking.filter (fun s => decide (s.ref_id ∈ ids))).map
      (fun s => s.ref_id)) ↔ x ∈ ranking.map (fun t => t.ref_id) ∧ x ∈ ids := by
    intro x
    constructor
    · intro hx
      obtain ⟨s, hs, rfl⟩ := List.mem_map.mp hx
      exact ⟨List.mem_map.mpr ⟨s, (List.mem_filter.mp hs).1, rfl⟩, hkept_sub _ hx⟩
    · rintro ⟨hx, hxid⟩
      obtain ⟨s, hs, rfl⟩ := List.mem_map.mp hx
      exact List.mem_map.mpr ⟨s, List.mem_filter.mpr ⟨hs, decide_eq_true hxid⟩, rfl⟩
  have hkept_nd : ((ranking.filter (fun s => decide (s.ref_id ∈ ids))).map
      (fun s => s.ref_id)).Nodup :=
    h1.sublist ((List.filter_sublist ranking).map (fun s => s.ref_id))
  refine ⟨?_, ?_, ?_, ?_⟩
  · rw [complete_ranking, hme, List.map_append, List.map_map]
    have hsnd : (ids.filter (fun id => decide (id ∉ (ranking.filter
        (fun s => decide (s.ref_id ∈ ids))).map (fun s => s.ref_id)))).map
        ((fun s => RankingScore.ref_id s) ∘ fun id => RankingScore.mk id 0)
        = ids.filter (fun id => decide (id ∉ (ranking.filter
            (fun s => decide (s.ref_id ∈ ids))).map (fun s => s.ref_id))) := by
      have hcomp : ((fun s => RankingScore.ref_id s) ∘ fun id => RankingScore.mk id 0)
          = @id String := rfl
      rw [hcomp, List.map_id]
    rw [hsnd]
    apply List.perm_of_nodup_nodup_toFinset_eq
    · refine List.Nodup.append hkept_nd (h2.filter _) ?_
      intro x hx hx'
      have := (List.mem_filter.mp hx').2
      simp only [decide_eq_true_eq] at this
      exact this hx
    · exact h2
    · ext x
      simp only [List.mem_toFinset, List.mem_append, List.mem_filter, decide_eq_true_eq]
      constructor
      · rintro (hx | ⟨hx, _⟩)
        · exact hkept_sub x hx
        · exact hx
      · intro hx
        by_cases hk : x ∈ (ranking.filter (fun s => decide (s.ref_id ∈ ids))).map
            (fun s => s.ref_id)
        · exact Or.inl hk
        · exact Or.inr ⟨hx, hk⟩
  · intro s hs hsid
    rw [complete_ranking]
    exact List.mem_append.mpr (Or.inl (List.mem_filter.mpr ⟨hs, decide_eq_true hsid⟩))
  · intro s hs
    rw [complete_ranking, hme] at hs
    rcases List.mem_append.mp hs with hs' | hs'
    · exact Or.inl (List.mem_filter.mp hs').1
    · obtain ⟨id, hid, rfl⟩ := List.mem_map.mp hs'
      have hid' := List.mem_filter.mp hid
      simp only [decide_eq_true_eq] at hid'
      refine Or.inr ⟨rfl, fun hmem => hid'.2 ?_⟩
      exact (hkept_ran id).mpr ⟨hmem, hid'.1⟩
  · intro id hid hnot
    rw [complete_ranking, hme]
    refine List.mem_append.mpr (Or.inr (List.mem_map.mpr ⟨id, ?_, rfl⟩))
    refine List.mem_filter.mpr ⟨hid, ?_⟩
    simp only [decide_eq_true_eq]
    intro hmem
    exact hnot ((hkept_ran id).mp hmem).1

/-- Concrete instantiation of `complete_ranking_spec` at
`ranking = [("b", 1)]`, `ids = ["a", "b"]`. -/
theorem complete_ranking_spec_witness :
    (([RankingScore.mk "b" 1].map (fun s => s.ref_id)).Nodup
      ∧ (["a", "b"] : List String).Nodup)
    ∧ (List.Perm ((complete_ranking [RankingScore.mk "b" 1] ["a", "b"] 0).map
          (fun s => s.ref_id)) ["a", "b"]
      ∧ (∀ s ∈ [RankingScore.mk "b" 1], s.ref_id ∈ ["a", "b"] →
          s ∈ complete_ranking [RankingScore.mk "b" 1] ["a", "b"] 0)
      ∧ (∀ s ∈ complete_ranking [RankingScore.mk "b" 1] ["a", "b"] 0,
          s ∈ [RankingScore.mk "b" 1]
          ∨ (s.score = 0 ∧ s.ref_id ∉ [RankingScore.mk "b" 1].map (fun t => t.ref_id)))
      ∧ (∀ id ∈ ["a", "b"], id ∉ [RankingScore.mk "b" 1].map (fun t => t.ref_id) →
          RankingScore.mk id 0 ∈ complete_ranking [RankingScore.mk "b" 1] ["a", "b"] 0)) :=
  ⟨⟨by decide, by decide⟩,
    complete_ranking_spec [RankingScore.mk "b" 1] ["a", "b"] (by decide) (by decide)⟩

/-- **C3 counterexample.** With a duplicated id in the input ranking,
`complete_ranking` keeps both entries, so it returns two scores although
`ids` contains a single id — not "exactly one score per id in ids". -/
theorem complete_ranking_counterexample :
    complete_ranking [RankingScore.mk "a" (1/2), RankingScore.mk "a" (7/10)] ["a"] 0
      = [RankingScore.mk "a" (1/2), RankingScore.mk "a" (7/10)]
    ∧ (complete_ranking [RankingScore.mk "a" (1/2), RankingScore.mk "a" (7/10)] ["a"] 0).length
        ≠ (["a"] : List String).length := by
  constructor
  · rfl
  · decide

/-- `ExtractedEntity` from `intent_understanding/iu.py` (its constructor
enforces `start < end`). -/
structure ExtractedEntity where
  start : ℕ
  end_ : ℕ
  entity : String
  value : Option String
  text : String
  confidence : ℚ
  extractor : Option String
deriving DecidableEq, Repr

/-- `entities_overlap` from `iu.py`. -/
def entities_overlap (e1 e2 : ExtractedEntity) : Bool :=
  (decide (e2.start ≤ e1.start) && decide (e1.start < e2.end_))
    || (decide (e1.start ≤ e2.start) && decide (e2.start < e1.end_))

/-- The body of the inner loop of `remove_ambiguous_entities`: which index
(if any) the enumerated pair `(i, entity), (j, entity2)` adds to
`remove_idxs`. -/
def pair_remove_idx (i : ℕ) (e1 : ExtractedEntity) (j : ℕ) (e2 : ExtractedEntity) : Option ℕ :=
  if i = j then none
  else if entities_overlap e1 e2 && (e1.entity == e2.entity) && (e1.value == e2.value) then
    if e1.text.length = e2.text.length then
      some (if i ≤ j then i else j)
    else if e1.text.length > e2.text.length then some j
    else some i
  else none

/-- The `remove_idxs` set of `remove_ambiguous_entities`, accumulated over all
ordered pairs of enumerated entities (membership is all that is used). -/
def remove_idxs (entities : List ExtractedEntity) : List ℕ :=
  (entities.enum ×ˢ entities.enum).filterMap
    (fun p => pair_remove_idx p.1.1 p.1.2 p.2.1 p.2.2)

/-- `remove_ambiguous_entities` from `iu.py`: drop every entity whose index
is in `remove_idxs`. -/
def remove_ambiguous_entities (entities : List ExtractedEntity) : List ExtractedEntity :=
  (entities.enum.filter (fun p => decide (p.1 ∉ remove_idxs entities))).map Prod.snd

/-- Spec-side predicate: the enumerated entity `(i, e)` is dominated when some
other overlapping entity with the same `(entity, value)` key has strictly
longer text, or text of equal length and a strictly larger index. -/
def dominated (entities : List ExtractedEntity) (i : ℕ) (e : ExtractedEntity) : Bool :=
  entities.enum.any (fun je =>
    decide (je.1 ≠ i) && entities_overlap e je.2
      && (e.entity == je.2.entity) && (e.value == je.2.value)
      && (decide (e.text.length < je.2.text.length)
          || (decide (e.text.length = je.2.text.length) && decide (i < je.1))))

theorem entities_overlap_symm (e1 e2 : ExtractedEntity)
    (h : entities_overlap e1 e2 = true) : entities_overlap e2 e1 = true := by
  simp only [entities_overlap, Bool.or_eq_true, Bool.and_eq_true, decide_eq_true_eq] at h ⊢
  tauto

/-- Unfolding of the `dominated` boolean into a proposition. -/
theorem dominated_iff (entities : List ExtractedEntity) (i : ℕ) (e : ExtractedEntity) :
    dominated entities i e = true
      ↔ ∃ j e2, (j, e2) ∈ entities.enum ∧ j ≠ i
          ∧ entities_overlap e e2 = true ∧ e.entity = e2.entity ∧ e.value = e2.value
          ∧ (e.text.length < e2.text.length
              ∨ (e.text.length = e2.text.length ∧ i < j)) := by
  rw [dominated, List.any_eq_true]
  constructor
  · rintro ⟨⟨j, e2⟩, hj, hcond⟩
    simp only [Bool.and_eq_true, Bool.or_eq_true, beq_iff_eq, decide_eq_true_eq] at hcond
    exact ⟨j, e2, hj, hcond.1.1.1.1, hcond.1.1.1.2, hcond.1.1.2, hcond.1.2, hcond.2⟩
  · rintro ⟨j, e2, hj, hij, hov, hent, hval, hcase⟩
    refine ⟨(j, e2), hj, ?_⟩
    simp only [Bool.and_eq_true, Bool.or_eq_true, beq_iff_eq, decide_eq_true_eq]
    exact ⟨⟨⟨⟨hij, hov⟩, hent⟩, hval⟩, hcase⟩

/-- Membership in `remove_idxs` is exactly domination. -/
theorem mem_remove_idxs_iff (entities : List ExtractedEntity) (i : ℕ) (e : ExtractedEntity)
    (hie : (i, e) ∈ entities.enum) :
    i ∈ remove_idxs entities ↔ dominated entities i e = true := by
  have hinj : ∀ a (ea : ExtractedEntity), (a, ea) ∈ entities.enum → a = i → ea = e := by
    intro a ea ha hai
    subst hai
    have h1 := List.mk_mem_enum_iff_getElem?.mp ha
    have h2 := List.mk_mem_enum_iff_getElem?.mp hie
    rw [h1] at h2
    exact Option.some_injective _ h2
  rw [dominated_iff]
  constructor
  · intro hmem
    obtain ⟨p, hp, hpr0⟩ := List.mem_filterMap.mp hmem
    obtain ⟨⟨a, ea⟩, ⟨b, eb⟩⟩ := p
    obtain ⟨ha, hb⟩ := List.pair_mem_product.mp hp
    have hpr : pair_remove_idx a ea b eb = some i := hpr0
    rw [pair_remove_idx] at hpr
    by_cases hab : a = b
    · simp [hab] at hpr
    rw [if_neg hab] at hpr
    by_cases hcond : (entities_overlap ea eb && (ea.entity == eb.entity)
        && (ea.value == eb.value)) = true
    swap
    · rw [if_neg hcond] at hpr; exact absurd hpr (by simp)
    rw [if_pos hcond] at hpr
    simp only [Bool.and_eq_true, beq_iff_eq] at hcond
    obtain ⟨⟨hov, hent⟩, hval⟩ := hcond
    by_cases hlen : ea.text.length = eb.text.length
    · rw [if_pos hlen] at hpr
      have hi : (if a ≤ b then a else b) = i := Option.some_injective _ hpr
      by_cases hle : a ≤ b
      · rw [if_pos hle] at hi
        have hea : ea = e := hinj a ea ha hi
        have hlt : i < b := hi ▸ lt_of_le_of_ne hle hab
        exact ⟨b, eb, hb, Nat.ne_of_gt hlt, hea ▸ hov, hea ▸ hent, hea ▸ hval,
          Or.inr ⟨hea ▸ hlen, hlt⟩⟩
      · rw [if_neg hle] at hi
        have heb : eb = e := hinj b eb hb hi
        have hlt : i < a := hi ▸ Nat.lt_of_not_le hle
        exact ⟨a, ea, ha, Nat.ne_of_gt hlt, heb ▸ entities_overlap_symm _ _ hov,
          heb ▸ hent.symm, heb ▸ hval.symm, Or.inr ⟨heb ▸ hlen.symm, hlt⟩⟩
    · rw [if_neg hlen] at hpr
      by_cases hgt : ea.text.length > eb.text.length
      · rw [if_pos hgt] at hpr
        have hi : b = i := Option.some_injective _ hpr
        have heb : eb = e := hinj b eb hb hi
        refine ⟨a, ea, ha, fun h => hab (h.trans hi.symm), heb ▸ entities_overlap_symm _ _ hov,
          heb ▸ hent.symm, heb ▸ hval.symm, Or.inl ?_⟩
        rw [← heb]; exact hgt
      · rw [if_neg hgt] at hpr
        have hi : a = i := Option.some_injective _ hpr
        have hea : ea = e := hinj a ea ha hi
        refine ⟨b, eb, hb, fun h => hab (hi.symm ▸ h.symm), hea ▸ hov,
          hea ▸ hent, hea ▸ hval, Or.inl ?_⟩
        rw [← hea]; omega
  · rintro ⟨j, e2, hj, hij, hov, hent, hval, hcase⟩
    refine List.mem_filterMap.mpr ⟨((i, e), (j, e2)), List.pair_mem_product.mpr ⟨hie, hj⟩, ?_⟩
    show pair_remove_idx i e j e2 = some i
    rw [pair_remove_idx, if_neg (Ne.symm hij)]
    rw [if_pos (by simp [hov, hent, hval])]
    rcases hcase with hlt | ⟨hlen, hij'⟩
    · rw [if_neg (by omega), if_neg (by omega)]
    · rw [if_pos hlen, if_pos (Nat.le_of_lt hij')]

/-- **C1 (amended).** `remove_ambiguous_entities` keeps exactly the entities
that are not dominated: among overlapping entities with the same
`(entity, value)`, an entity is removed iff some such overlapping partner has
strictly longer matched text, or equal-length text and a *larger* index — so
on an exact length tie the *later*-indexed entity is kept, and entities whose
overlapping partners all differ in `(entity, value)` are never removed. -/
theorem remove_ambiguous_entities_spec (entities : List ExtractedEntity) :
    remove_ambiguous_entities entities
      = (entities.enum.filter (fun p => !(dominated entities p.1 p.2))).map Prod.snd := by
  rw [remove_ambiguous_entities]
  congr 1
  apply List.filter_congr
  intro p hp
  obtain ⟨i, e⟩ := p
  have := mem_remove_idxs_iff entities i e hp
  by_cases hd : dominated entities i e = true
  · simp [hd, this.mpr hd]
  · have : i ∉ remove_idxs entities := fun hm => hd (this.mp hm)
    simp [this, Bool.eq_false_iff.mpr hd]

/-- **C1 counterexample.** Two overlapping entities with the same
`(entity, value)` and equal-length texts: the code removes the
earlier-indexed one and keeps the later-indexed one, contradicting the
claim that the earlier-indexed one is kept. -/
theorem remove_ambiguous_entities_counterexample :
    remove_ambiguous_entities
        [ExtractedEntity.mk 0 2 "city" (some "BE") "ab" 1 none,
         ExtractedEntity.mk 0 2 "city" (some "BE") "cd" 1 none]
      = [ExtractedEntity.mk 0 2 "city" (some "BE") "cd" 1 none]
    ∧ ExtractedEntity.mk 0 2 "city" (some "BE") "cd" 1 none
        ≠ ExtractedEntity.mk 0 2 "city" (some "BE") "ab" 1 none := by
  decide

/-- `PhraseEntity` from `models/phrase.py` (its constructor enforces
`start < end`). -/
structure PhraseEntity where
  start : ℕ
  end_ : ℕ
  entity : String
  value : String
deriving DecidableEq, Repr

/-- `Phrase` from `models/phrase.py` (the fields the annotation logic uses). -/
structure Phrase where
  expression_id : String
  text : String
  entities : List PhraseEntity
deriving DecidableEq, Repr

/-- `Phrase.annotate`: split the existing annotations into the ones ending
before the new one and the ones starting after it; insert in between if the
two parts account for every existing annotation, otherwise leave the phrase
unchanged. -/
def Phrase.annotate (p : Phrase) (entity : PhraseEntity) : Phrase :=
  if (p.entities.filter (fun e => decide (e.end_ ≤ entity.start))).length
      + (p.entities.filter (fun e => decide (entity.end_ ≤ e.start))).length
      = p.entities.length then
    { p with entities :=
        p.entities.filter (fun e => decide (e.end_ ≤ entity.start))
          ++ [entity] ++ p.entities.filter (fun e => decide (entity.end_ ≤ e.start)) }
  else p

/-- Counting two pointwise mutually exclusive predicates adds up to counting
their disjunction. -/
theorem countP_add_countP_of_mutually_exclusive {α : Type} (P Q : α → Bool) (l : List α)
    (h : ∀ a ∈ l, ¬(P a = true ∧ Q a = true)) :
    l.countP P + l.countP Q = l.countP (fun a => P a || Q a) := by
  induction l with
  | nil => rfl
  | cons a l ih =>
    have hl : ∀ b ∈ l, ¬(P b = true ∧ Q b = true) := fun b hb => h b (List.mem_cons_of_mem a hb)
    have ha := h a (List.mem_cons_self a l)
    rw [List.countP_cons, List.countP_cons, List.countP_cons, ← ih hl]
    by_cases hP : P a = true
    · have hQ : ¬Q a = true := fun hq => ha ⟨hP, hq⟩
      simp [hP, hQ]
      omega
    · by_cases hQ : Q a = true
      · simp [hP, hQ]
        omega
      · simp [hP, hQ]

/-- **C8.** On a phrase whose annotations are position-sorted and pairwise
non-overlapping (with well-formed spans), `annotate` with a non-overlapping
entity inserts it in position order — the result is `before ++ [entity] ++
after`, still sorted and non-overlapping, and a permutation of the entity
together with the old annotations — while `annotate` with an entity that
overlaps an existing annotation leaves the phrase completely unchanged. -/
theorem Phrase.annotate_spec (p : Phrase) (en : PhraseEntity)
    (hwf : ∀ e ∈ p.entities, e.start < e.end_) (hen : en.start < en.end_)
    (hsorted : p.entities.Pairwise (fun a b => a.end_ ≤ b.start)) :
    ((∀ e ∈ p.entities, e.end_ ≤ en.start ∨ en.end_ ≤ e.start) →
      (p.annotate en).entities
          = p.entities.filter (fun e => decide (e.end_ ≤ en.start))
            ++ [en] ++ p.entities.filter (fun e => decide (en.end_ ≤ e.start))
        ∧ (p.annotate en).entities.Pairwise (fun a b => a.end_ ≤ b.start)
        ∧ List.Perm (p.annotate en).entities (en :: p.entities))
    ∧ ((∃ e ∈ p.entities, ¬(e.end_ ≤ en.start ∨ en.end_ ≤ e.start)) →
      p.annotate en = p) := by
  have hexcl : ∀ e ∈ p.entities,
      ¬((decide (e.end_ ≤ en.start)) = true ∧ (decide (en.end_ ≤ e.start)) = true) := by
    intro e he ⟨h1, h2⟩
    have h1' := of_decide_eq_true h1
    have h2' := of_decide_eq_true h2
    have := hwf e he
    omega
  constructor
  · intro hno
    have hQ : p.entities.filter (fun e => decide (en.end_ ≤ e.start))
        = p.entities.filter (fun e => !(decide (e.end_ ≤ en.start))) := by
      apply List.filter_congr
      intro e he
      rcases hno e he with h | h
      · have : ¬(en.end_ ≤ e.start) := by
          have := hwf e he
          omega
        simp [h, this]
      · have : ¬(e.end_ ≤ en.start) := by
          have := hwf e he
          omega
        simp [h, this]
    have hsum : (p.entities.filter (fun e => decide (e.end_ ≤ en.start))).length
        + (p.entities.filter (fun e => decide (en.end_ ≤ e.start))).length
        = p.entities.length := by
      rw [hQ]
      have hp := (List.filter_append_perm
          (fun e => decide (e.end_ ≤ en.start)) p.entities).length_eq
      rw [List.length_append] at hp
      exact hp
    rw [Phrase.annotate, if_pos hsum]
    refine ⟨rfl, ?_, ?_⟩
    · simp only
      rw [List.append_assoc]
      rw [List.pairwise_append]
      refine ⟨hsorted.filter _, ?_, ?_⟩
      · rw [List.singleton_append, List.pairwise_cons]
        refine ⟨?_, hsorted.filter _⟩
        intro e he
        exact of_decide_eq_true (List.mem_filter.mp he).2
      · intro x hx y hy
        have hx' := of_decide_eq_true (List.mem_filter.mp hx).2
        rcases List.mem_cons.mp hy with rfl | hy'
        · exact hx'
        · have hy'' := of_decide_eq_true (List.mem_filter.mp hy').2
          omega
    · simp only
      rw [List.append_assoc]
      refine (List.perm_middle).trans ?_
      apply List.Perm.cons
      rw [hQ]
      exact List.filter_append_perm _ p.entities
  · rintro ⟨e, he, hov⟩
    rw [Phrase.annotate]
    rw [if_neg]
    intro hsum
    rw [← List.countP_eq_length_filter, ← List.countP_eq_length_filter] at hsum
    rw [countP_add_countP_of_mutually_exclusive _ _ _ hexcl] at hsum
    have hall := List.countP_eq_length.mp hsum e he
    rw [Bool.or_eq_true] at hall
    rcases hall with h | h
    · exact hov (Or.inl (of_decide_eq_true h))
    · exact hov (Or.inr (of_decide_eq_true h))

/-- Concrete instantiation of `Phrase.annotate_spec`: one existing annotation
at span `[10, 21)`, a new one at `[26, 35)`. -/
theorem Phrase.annotate_spec_witness :
    ((∀ e ∈ (Phrase.mk "x" "t" [PhraseEntity.mk 10 21 "country" "CH"]).entities,
        e.start < e.end_)
      ∧ (PhraseEntity.mk 26 35 "country" "DE").start < (PhraseEntity.mk 26 35 "country" "DE").end_
      ∧ (Phrase.mk "x" "t" [PhraseEntity.mk 10 21 "country" "CH"]).entities.Pairwise
          (fun a b => a.end_ ≤ b.start))
    ∧ (((∀ e ∈ (Phrase.mk "x" "t" [PhraseEntity.mk 10 21 "country" "CH"]).entities,
          e.end_ ≤ (PhraseEntity.mk 26 35 "country" "DE").start
            ∨ (PhraseEntity.mk 26 35 "country" "DE").end_ ≤ e.start) →
        ((Phrase.mk "x" "t" [PhraseEntity.mk 10 21 "country" "CH"]).annotate
            (PhraseEntity.mk 26 35 "country" "DE")).entities
            = (Phrase.mk "x" "t" [PhraseEntity.mk 10 21 "country" "CH"]).entities.filter
                (fun e => decide (e.end_ ≤ (PhraseEntity.mk 26 35 "country" "DE").start))
              ++ [PhraseEntity.mk 26 35 "country" "DE"]
              ++ (Phrase.mk "x" "t" [PhraseEntity.mk 10 21 "country" "CH"]).entities.filter
                  (fun e => decide ((PhraseEntity.mk 26 35 "country" "DE").end_ ≤ e.start))
          ∧ ((Phrase.mk "x" "t" [PhraseEntity.mk 10 21 "country" "CH"]).annotate
              (PhraseEntity.mk 26 35 "country" "DE")).entities.Pairwise
              (fun a b => a.end_ ≤ b.start)
          ∧ List.Perm ((Phrase.mk "x" "t" [PhraseEntity.mk 10 21 "country" "CH"]).annotate
              (PhraseEntity.mk 26 35 "country" "DE")).entities
              (PhraseEntity.mk 26 35 "country" "DE"
                :: (Phrase.mk "x" "t" [PhraseEntity.mk 10 21 "country" "CH"]).entities))
      ∧ ((∃ e ∈ (Phrase.mk "x" "t" [PhraseEntity.mk 10 21 "country" "CH"]).entities,
          ¬(e.end_ ≤ (PhraseEntity.mk 26 35 "country" "DE").start
            ∨ (PhraseEntity.mk 26 35 "country" "DE").end_ ≤ e.start)) →
        (Phrase.mk "x" "t" [PhraseEntity.mk 10 21 "country" "CH"]).annotate
            (PhraseEntity.mk 26 35 "country" "DE")
          = Phrase.mk "x" "t" [PhraseEntity.mk 10 21 "country" "CH"])) :=
  ⟨⟨by decide, by decide, by simp⟩,
    Phrase.annotate_spec (Phrase.mk "x" "t" [PhraseEntity.mk 10 21 "country" "CH"])
      (PhraseEntity.mk 26 35 "country" "DE") (by decide) (by decide) (by simp)⟩

/-- `Intent` from `models/intent.py` (the fields intent sorting uses). -/
structure Intent where
  id : String
  input_contexts : List String
deriving DecidableEq, Repr

/-- `DialogueState` from `models/state.py`: its live contexts (the `_contexts`
dict, keyed by context name). -/
structure DialogueState where
  contexts : List TTLContext
deriving DecidableEq, Repr

/-- `DialogueState.context_names`. -/
def DialogueState.context_names (st : DialogueState) : List String :=
  st.contexts.map (fun c => c.name)

/-- `DialogueState.context`: look a context up by name. -/
def DialogueState.context (st : DialogueState) (name : String) : Option TTLContext :=
  st.contexts.find? (fun c => c.name == name)

/-- `max([c.lived for c in dialogue_state.contexts])` with `0` for the empty
state (`lived` is a natural number, so folding `max` from `0` agrees with
Python's `max` on non-empty lists). -/
def max_context_lived (st : DialogueState) : ℕ :=
  (st.contexts.map (fun c => c.lived)).foldr max 0

/-- `most_recent_input_context_value` from `iu.py`: the minimum `lived`
counter over the intent's input contexts that are live in the state, or the
sentinel `max_context_lived + 1` when there is none. -/
def most_recent_input_context_value (st : DialogueState) (mcl : ℕ) (intent : Intent) : ℕ :=
  match (intent.input_contexts.filterMap (fun c =>
      if c ∈ st.context_names then (st.context c).map (fun ctx => ctx.lived) else none)).min? with
  | some m => m
  | none => mcl + 1

/-- The sort key of `sort_intent_ranking`:
`(score, -recency, number of input contexts)`. -/
def intent_sort_key (env : String → Intent) (st : DialogueState) (s : RankingScore) :
    ℚ × ℤ × ℕ :=
  (s.score,
    -(most_recent_input_context_value st (max_context_lived st) (env s.ref_id) : ℤ),
    (env s.ref_id).input_contexts.length)

/-- Descending lexicographic comparison of sort keys (`sorted` with
`reverse=True` places larger keys first). -/
def key_ge (k1 k2 : ℚ × ℤ × ℕ) : Prop :=
  k2.1 < k1.1 ∨ (k1.1 = k2.1 ∧ (k2.2.1 < k1.2.1 ∨ (k1.2.1 = k2.2.1 ∧ k2.2.2 ≤ k1.2.2)))

instance (k1 k2 : ℚ × ℤ × ℕ) : Decidable (key_ge k1 k2) := by
  unfold key_ge
  infer_instance

/-- `sort_intent_ranking` from `iu.py`: a stable sort placing larger keys
first (Python's `sorted(..., key=sort_key, reverse=True)`). -/
def sort_intent_ranking (env : String → Intent) (st : DialogueState)
    (intent_ranking : List RankingScore) : List RankingScore :=
  intent_ranking.insertionSort
    (fun a b => key_ge (intent_sort_key env st a) (intent_sort_key env st b))

theorem key_ge_total (k1 k2 : ℚ × ℤ × ℕ) : key_ge k1 k2 ∨ key_ge k2 k1 := by
  rw [key_ge, key_ge]
  rcases lt_trichotomy k1.1 k2.1 with h | h | h
  · exact Or.inr (Or.inl h)
  · rcases lt_trichotomy k1.2.1 k2.2.1 with h' | h' | h'
    · exact Or.inr (Or.inr ⟨h.symm, Or.inl h'⟩)
    · rcases le_total k2.2.2 k1.2.2 with h'' | h''
      · exact Or.inl (Or.inr ⟨h, Or.inr ⟨h', h''⟩⟩)
      · exact Or.inr (Or.inr ⟨h.symm, Or.inr ⟨h'.symm, h''⟩⟩)
    · exact Or.inl (Or.inr ⟨h, Or.inl h'⟩)
  · exact Or.inl (Or.inl h)

theorem key_ge_trans (k1 k2 k3 : ℚ × ℤ × ℕ)
    (h12 : key_ge k1 k2) (h23 : key_ge k2 k3) : key_ge k1 k3 := by
  rw [key_ge] at h12 h23 ⊢
  rcases h12 with h12 | ⟨h12a, h12b⟩
  · rcases h23 with h23 | ⟨h23a, _⟩
    · exact Or.inl (h23.trans h12)
    · exact Or.inl (h23a ▸ h12)
  · rcases h23 with h23 | ⟨h23a, h23b⟩
    · exact Or.inl (h12a ▸ h23)
    · refine Or.inr ⟨h12a.trans h23a, ?_⟩
      rcases h12b with h12b | ⟨h12c, h12d⟩
      · rcases h23b with h23b | ⟨h23c, _⟩
        · exact Or.inl (h23b.trans h12b)
        · exact Or.inl (h23c ▸ h12b)
      · rcases h23b with h23b | ⟨h23c, h23d⟩
        · exact Or.inl (h12c ▸ h23b)
        · exact Or.inr ⟨h12c.trans h23c, h23d.trans h12d⟩

theorem le_foldr_max (l : List ℕ) (x : ℕ) (hx : x ∈ l) : x ≤ l.foldr max 0 := by
  induction l with
  | nil => cases hx
  | cons a l ih =>
    rcases List.mem_cons.mp hx with rfl | hx'
    · exact le_max_left _ _
    · exact le_trans (ih hx') (le_max_right _ _)

/-- **C2 (amended).** `sort_intent_ranking` permutes the ranking into
descending order by score; on a score tie, the intent whose required input
contexts contain the most recently entered live context (smallest `lived`
counter) ranks higher, intents with no qualifying input context getting the
sentinel recency `max_context_lived + 1`, older than every live context; on a
full tie, the intent with *more* required input contexts ranks higher. -/
theorem sort_intent_ranking_spec (env : String → Intent) (st : DialogueState)
    (intent_ranking : List RankingScore) :
    List.Perm (sort_intent_ranking env st intent_ranking) intent_ranking
    ∧ (sort_intent_ranking env st intent_ranking).Pairwise (fun a b =>
        b.score < a.score
        ∨ (a.score = b.score
            ∧ (most_recent_input_context_value st (max_context_lived st) (env a.ref_id)
                < most_recent_input_context_value st (max_context_lived st) (env b.ref_id)
              ∨ (most_recent_input_context_value st (max_context_lived st) (env a.ref_id)
                  = most_recent_input_context_value st (max_context_lived st) (env b.ref_id)
                ∧ (env b.ref_id).input_contexts.length
                    ≤ (env a.ref_id).input_contexts.length))))
    ∧ (∀ s : RankingScore,
        (∀ c ∈ (env s.ref_id).input_contexts, c ∉ st.context_names) →
        most_recent_input_context_value st (max_context_lived st) (env s.ref_id)
            = max_context_lived st + 1
        ∧ ∀ c ∈ st.contexts, c.lived
            < most_recent_input_context_value st (max_context_lived st) (env s.ref_id)) := by
  refine ⟨List.perm_insertionSort _ _, ?_, ?_⟩
  · haveI ht : IsTotal RankingScore
        (fun a b => key_ge (intent_sort_key env st a) (intent_sort_key env st b)) :=
      ⟨fun a b => key_ge_total _ _⟩
    haveI htr : IsTrans RankingScore
        (fun a b => key_ge (intent_sort_key env st a) (intent_sort_key env st b)) :=
      ⟨fun a b c => key_ge_trans _ _ _⟩
    have hs := List.sorted_insertionSort
      (fun a b => key_ge (intent_sort_key env st a) (intent_sort_key env st b)) intent_ranking
    refine hs.imp ?_
    intro a b hab
    rw [key_ge] at hab
    rcases hab with h | ⟨h1, h2⟩
    · exact Or.inl h
    · refine Or.inr ⟨h1, ?_⟩
      rcases h2 with h2 | ⟨h3, h4⟩
      · refine Or.inl ?_
        simp only [intent_sort_key, neg_lt_neg_iff, Nat.cast_lt] at h2
        exact h2
      · refine Or.inr ⟨?_, h4⟩
        simp only [intent_sort_key, neg_inj, Nat.cast_inj] at h3
        exact h3
  · intro s hnone
    have hres : (env s.ref_id).input_contexts.filterMap (fun c =>
        if c ∈ st.context_names then (st.context c).map (fun ctx => ctx.lived) else none)
        = [] := by
      rw [List.filterMap_eq_nil_iff]
      intro c hc
      rw [if_neg (hnone c hc)]
    have hval : most_recent_input_context_value st (max_context_lived st) (env s.ref_id)
        = max_context_lived st + 1 := by
      rw [most_recent_input_context_value, hres]
      rfl
    refine ⟨hval, ?_⟩
    intro c hc
    rw [hval]
    have : c.lived ≤ max_context_lived st :=
      le_foldr_max _ _ (List.mem_map.mpr ⟨c, hc, rfl⟩)
    omega

/-- **C2 counterexample.** Empty dialogue state, equal scores, equal (sentinel)
recency: intent `"a"` has two required input contexts, intent `"b"` has none.
The claim predicts `"b"` (fewer input contexts) ranks higher, but the code
sorts `"a"` first (more input contexts win on a full tie). -/
theorem sort_intent_ranking_counterexample :
    sort_intent_ranking
        (fun id => if id = "a" then Intent.mk "a" ["c1", "c2"] else Intent.mk id [])
        (DialogueState.mk [])
        [RankingScore.mk "b" 1, RankingScore.mk "a" 1]
      = [RankingScore.mk "a" 1, RankingScore.mk "b" 1] := by
  decide

/-- A list deduplicates to the singleton `[x]` iff it contains `x` and
nothing else. -/
theorem dedup_eq_singleton_iff {α : Type} [DecidableEq α] (l : List α) (x : α) :
    l.dedup = [x] ↔ x ∈ l ∧ ∀ y ∈ l, y = x := by
  constructor
  · intro h
    have hx : x ∈ l := List.mem_dedup.mp (h ▸ List.mem_singleton_self x)
    refine ⟨hx, fun y hy => ?_⟩
    have : y ∈ l.dedup := List.mem_dedup.mpr hy
    rw [h] at this
    exact List.mem_singleton.mp this
  · rintro ⟨hx, hall⟩
    induction l with
    | nil => cases hx
    | cons a l ih =>
      have ha : a = x := hall a (List.mem_cons_self a l)
      subst ha
      by_cases hmem : a ∈ l
      · rw [List.dedup_cons_of_mem hmem]
        exact ih hmem (fun y hy => hall y (List.mem_cons_of_mem a hy))
      · rw [List.dedup_cons_of_not_mem hmem]
        have : l = [] := by
          by_contra hne
          obtain ⟨b, hb⟩ := List.exists_mem_of_ne_nil l hne
          exact hmem ((hall b (List.mem_cons_of_mem a hb)) ▸ hb)
        rw [this]
        rfl

/-- `NLUResult` from `natural_language_understanding/nlu.py`:
an expression ranking with a confidence threshold and extracted entities
(entities abstracted as a finite set of tokens). -/
structure NLUResult where
  utterance : String
  expression_ranking : List RankingScore
  confidence_threshold : ℚ
  entities : Finset String
deriving DecidableEq

/-- The per-expression match condition of `RegexExpressionRanker.run`: at
least one include pattern matches the utterance and no exclude pattern does
(regex matching abstracted as boolean predicates on strings). -/
def regex_matches (include_patterns exclude_patterns : String → List (String → Bool))
    (utterance : String) (id : String) : Bool :=
  ((include_patterns id).any (fun p => p utterance))
    && !((exclude_patterns id).any (fun p => p utterance))

/-- `RegexExpressionRanker.run` from `regex_er.py`: collect the set of
matching candidate expressions; only an unambiguous (single) candidate is
scored 1, then the ranking is completed over the expression filter with
default score 0, confidence threshold 1, no entities. -/
def RegexExpressionRanker.run
    (include_patterns exclude_patterns : String → List (String → Bool))
    (expression_filter : List String) (utterance : String) : NLUResult :=
  NLUResult.mk utterance
    (complete_ranking
      (match (expression_filter.filter
          (regex_matches include_patterns exclude_patterns utterance)).dedup with
        | [x] => [RankingScore.mk x 1]
        | _ => [])
      expression_filter 0)
    1 ∅

/-- Every entry appended by `add_missing` carries the default score, an id
from `ids`, and an id not in `res_ids`. -/
theorem add_missing_entry_shape (c : ℚ) :
    ∀ (ids res_ids : List String), ∀ s ∈ add_missing res_ids c ids,
      s.score = c ∧ s.ref_id ∈ ids ∧ s.ref_id ∉ res_ids := by
  intro ids
  induction ids with
  | nil => intro res_ids s hs; cases hs
  | cons id rest ih =>
    intro res_ids s hs
    rw [add_missing] at hs
    by_cases h : id ∈ res_ids
    · rw [if_pos h] at hs
      obtain ⟨h1, h2, h3⟩ := ih res_ids s hs
      exact ⟨h1, List.mem_cons_of_mem _ h2, h3⟩
    · rw [if_neg h] at hs
      rcases List.mem_cons.mp hs with rfl | hs'
      · exact ⟨rfl, List.mem_cons_self _ _, h⟩
      · obtain ⟨h1, h2, h3⟩ := ih (res_ids ++ [id]) s hs'
        exact ⟨h1, List.mem_cons_of_mem _ h2,
          fun hmem => h3 (List.mem_append.mpr (Or.inl hmem))⟩

/-- Every id of `ids` is either already in `res_ids` or receives an entry
from `add_missing`. -/
theorem add_missing_covers (c : ℚ) :
    ∀ (ids res_ids : List String), ∀ id ∈ ids,
      id ∈ res_ids ∨ ∃ s ∈ add_missing res_ids c ids, s.ref_id = id := by
  intro ids
  induction ids with
  | nil => intro res_ids id hid; cases hid
  | cons id0 rest ih =>
    intro res_ids id hid
    rw [add_missing]
    by_cases h : id0 ∈ res_ids
    · rw [if_pos h]
      rcases List.mem_cons.mp hid with rfl | hid'
      · exact Or.inl h
      · exact ih res_ids id hid'
    · rw [if_neg h]
      rcases List.mem_cons.mp hid with rfl | hid'
      · exact Or.inr ⟨RankingScore.mk id c, List.mem_cons_self _ _, rfl⟩
      · rcases ih (res_ids ++ [id0]) id hid' with hmem | ⟨s, hs, hsid⟩
        · rcases List.mem_append.mp hmem with hmem' | hmem'
          · exact Or.inl hmem'
          · rcases List.mem_singleton.mp hmem' with rfl
            exact Or.inr ⟨RankingScore.mk id c, List.mem_cons_self _ _, rfl⟩
        · exact Or.inr ⟨s, List.mem_cons_of_mem _ hs, hsid⟩

/-- **C5.** `RegexExpressionRanker.run` counts an expression as matched iff
some include pattern matches the utterance and no exclude pattern does; when
exactly one expression of the filter matches, that expression is scored `1`
and every other entry `0` (with every filter id receiving an entry); when
zero or several distinct expressions match, every entry of the returned
ranking is scored `0`.  The function is total: no exception is modelled. -/
theorem regex_expression_ranker_spec
    (include_patterns exclude_patterns : String → List (String → Bool))
    (expression_filter : List String) (utterance : String) :
    (∀ id, regex_matches include_patterns exclude_patterns utterance id = true
        ↔ ((include_patterns id).any (fun p => p utterance) = true
            ∧ ¬((exclude_patterns id).any (fun p => p utterance) = true)))
    ∧ (∀ c, (c ∈ expression_filter
          ∧ regex_matches include_patterns exclude_patterns utterance c = true
          ∧ (∀ y ∈ expression_filter,
              regex_matches include_patterns exclude_patterns utterance y = true → y = c)) →
        RankingScore.mk c 1 ∈ (RegexExpressionRanker.run include_patterns exclude_patterns
            expression_filter utterance).expression_ranking
        ∧ (∀ s ∈ (RegexExpressionRanker.run include_patterns exclude_patterns
            expression_filter utterance).expression_ranking, s.ref_id ≠ c → s.score = 0)
        ∧ (∀ s ∈ (RegexExpressionRanker.run include_patterns exclude_patterns
            expression_filter utterance).expression_ranking, s.ref_id = c → s.score = 1)
        ∧ (∀ id ∈ expression_filter,
            ∃ s ∈ (RegexExpressionRanker.run include_patterns exclude_patterns
              expression_filter utterance).expression_ranking, s.ref_id = id))
    ∧ ((¬∃ c, c ∈ expression_filter
          ∧ regex_matches include_patterns exclude_patterns utterance c = true
          ∧ (∀ y ∈ expression_filter,
              regex_matches include_patterns exclude_patterns utterance y = true → y = c)) →
        ∀ s ∈ (RegexExpressionRanker.run include_patterns exclude_patterns
          expression_filter utterance).expression_ranking, s.score = 0) := by
  have hchar : ∀ c, (expression_filter.filter
      (regex_matches include_patterns exclude_patterns utterance)).dedup = [c]
      ↔ (c ∈ expression_filter
          ∧ regex_matches include_patterns exclude_patterns utterance c = true
          ∧ (∀ y ∈ expression_filter,
              regex_matches include_patterns exclude_patterns utterance y = true → y = c)) := by
    intro c
    rw [dedup_eq_singleton_iff]
    constructor
    · rintro ⟨hc, hall⟩
      obtain ⟨hc1, hc2⟩ := List.mem_filter.mp hc
      exact ⟨hc1, hc2, fun y hy hmy => hall y (List.mem_filter.mpr ⟨hy, hmy⟩)⟩
    · rintro ⟨hc1, hc2, huni⟩
      refine ⟨List.mem_filter.mpr ⟨hc1, hc2⟩, fun y hy => ?_⟩
      obtain ⟨hy1, hy2⟩ := List.mem_filter.mp hy
      exact huni y hy1 hy2
  refine ⟨?_, ?_, ?_⟩
  · intro id
    rw [regex_matches]
    simp [Bool.and_eq_true, Bool.not_eq_true']
  · intro c hc
    have hd := (hchar c).mpr hc
    have hrun : (RegexExpressionRanker.run include_patterns exclude_patterns
        expression_filter utterance).expression_ranking
        = complete_ranking [RankingScore.mk c 1] expression_filter 0 := by
      rw [RegexExpressionRanker.run, hd]
    rw [hrun]
    have hkept : ([RankingScore.mk c 1] : List RankingScore).filter
        (fun s => decide (s.ref_id ∈ expression_filter)) = [RankingScore.mk c 1] := by
      rw [List.filter_eq_self]
      intro a ha
      rcases List.mem_singleton.mp ha with rfl
      exact decide_eq_true hc.1
    refine ⟨?_, ?_, ?_, ?_⟩
    · rw [complete_ranking, hkept]
      exact List.mem_append.mpr (Or.inl (List.mem_singleton_self _))
    · intro s hs hsne
      rw [complete_ranking, hkept] at hs
      rcases List.mem_append.mp hs with hs' | hs'
      · rcases List.mem_singleton.mp hs' with rfl
        exact absurd rfl hsne
      · exact (add_missing_entry_shape 0 expression_filter _ s hs').1
    · intro s hs hseq
      rw [complete_ranking, hkept] at hs
      rcases List.mem_append.mp hs with hs' | hs'
      · rcases List.mem_singleton.mp hs' with rfl
        rfl
      · have h3 := (add_missing_entry_shape 0 expression_filter _ s hs').2.2
        exact absurd (List.mem_map.mpr
          ⟨RankingScore.mk c 1, List.mem_singleton_self _, hseq.symm⟩) h3
    · intro id hid
      rw [complete_ranking, hkept]
      by_cases hidc : id = c
      · subst hidc
        exact ⟨RankingScore.mk id 1, List.mem_append.mpr (Or.inl (List.mem_singleton_self _)),
          rfl⟩
      · rcases add_missing_covers 0 expression_filter
            ([RankingScore.mk c 1].map (fun s => s.ref_id)) id hid with hmem | ⟨s, hs, hsid⟩
        · rcases List.mem_singleton.mp hmem with rfl
          exact absurd rfl hidc
        · exact ⟨s, List.mem_append.mpr (Or.inr hs), hsid⟩
  · intro hno s hs
    have hd : ∀ x, (expression_filter.filter
        (regex_matches include_patterns exclude_patterns utterance)).dedup ≠ [x] := by
      intro x hx
      exact hno ⟨x, (hchar x).mp hx⟩
    have hrun : (RegexExpressionRanker.run include_patterns exclude_patterns
        expression_filter utterance).expression_ranking
        = complete_ranking [] expression_filter 0 := by
      rw [RegexExpressionRanker.run]
      rcases hdd : (expression_filter.filter
          (regex_matches include_patterns exclude_patterns utterance)).dedup with
        _ | ⟨x, _ | ⟨y, tl⟩⟩
      · rfl
      · exact absurd hdd (hd x)
      · rfl
    rw [hrun] at hs
    rw [complete_ranking] at hs
    simp only [List.filter_nil, List.map_nil, List.nil_append] at hs
    exact (add_missing_entry_shape 0 expression_filter [] s hs).1

/-- Concrete instantiation of `regex_expression_ranker_spec`: expression
`"a"` matches `"hello"` via an include pattern, `"b"` matches nothing. -/
theorem regex_expression_ranker_spec_witness :
    let ip : String → List (String → Bool) :=
      fun id => if id = "a" then [fun u => u == "hello"] else []
    let ep : String → List (String → Bool) := fun _ => []
    (∀ id, regex_matches ip ep "hello" id = true
        ↔ ((ip id).any (fun p => p "hello") = true
            ∧ ¬((ep id).any (fun p => p "hello") = true)))
    ∧ (∀ c, (c ∈ ["a", "b"]
          ∧ regex_matches ip ep "hello" c = true
          ∧ (∀ y ∈ ["a", "b"], regex_matches ip ep "hello" y = true → y = c)) →
        RankingScore.mk c 1
            ∈ (RegexExpressionRanker.run ip ep ["a", "b"] "hello").expression_ranking
        ∧ (∀ s ∈ (RegexExpressionRanker.run ip ep ["a", "b"] "hello").expression_ranking,
            s.ref_id ≠ c → s.score = 0)
        ∧ (∀ s ∈ (RegexExpressionRanker.run ip ep ["a", "b"] "hello").expression_ranking,
            s.ref_id = c → s.score = 1)
        ∧ (∀ id ∈ ["a", "b"],
            ∃ s ∈ (RegexExpressionRanker.run ip ep ["a", "b"] "hello").expression_ranking,
              s.ref_id = id))
    ∧ ((¬∃ c, c ∈ ["a", "b"]
          ∧ regex_matches ip ep "hello" c = true
          ∧ (∀ y ∈ ["a", "b"], regex_matches ip ep "hello" y = true → y = c)) →
        ∀ s ∈ (RegexExpressionRanker.run ip ep ["a", "b"] "hello").expression_ranking,
          s.score = 0) :=
  regex_expression_ranker_spec
    (fun id => if id = "a" then [fun u => u == "hello"] else []) (fun _ => [])
    ["a", "b"] "hello"

/-- One trained `(entity, value, pattern, needs_context)` tuple of
`EntityValueMapper._regex_patterns`, with the boundary-wrapped regex
abstracted as a boolean matcher on strings. -/
structure EVPattern where
  entity : String
  value : String
  pattern_matches : String → Bool
  needs_context : Bool

/-- The per-pattern keep condition of `EntityValueMapper.run`: the pattern's
entity is in the entity filter (environment entities plus the supplied
entity, if any), and a context-restricted pattern is only considered when the
supplied entity equals the pattern's entity. -/
def ev_pattern_eligible (env_entities : List String) (entity : Option String)
    (p : EVPattern) : Bool :=
  (decide (p.entity ∈ env_entities) || (entity == some p.entity))
    && (!p.needs_context || (entity == some p.entity))

/-- `EntityValueMapper.run` from `tools/entity_value_mapper.py`: collect the
set of `(entity, value)` candidates whose pattern matches the text, and
return a mapping only when the candidate is unique. -/
def EntityValueMapper.run (patterns : List EVPattern) (env_entities : List String)
    (entity : Option String) (text : String) : Option (String × String) :=
  match ((patterns.filter (fun p =>
      ev_pattern_eligible env_entities entity p && p.pattern_matches text)).map
        (fun p => (p.entity, p.value))).dedup with
  | [(e, v)] => some (e, v)
  | _ => none

/-- **C6.** `EntityValueMapper.run` returns the mapping `(e, v)` iff some
eligible pattern for `(e, v)` matches the text — where a context-restricted
pattern is eligible only when the supplied entity equals the pattern's
entity — and every eligible matching pattern agrees on `(e, v)`; with zero
candidates or several distinct candidates it returns `none`.  The function is
total: no exception is modelled. -/
theorem entity_value_mapper_spec (patterns : List EVPattern) (env_entities : List String)
    (entity : Option String) (text : String) :
    ∀ e v, EntityValueMapper.run patterns env_entities entity text = some (e, v)
      ↔ ((∃ p ∈ patterns, p.entity = e ∧ p.value = v ∧ p.pattern_matches text = true
            ∧ (p.entity ∈ env_entities ∨ entity = some p.entity)
            ∧ (p.needs_context = true → entity = some p.entity))
          ∧ (∀ p ∈ patterns, p.pattern_matches text = true →
              (p.entity ∈ env_entities ∨ entity = some p.entity) →
              (p.needs_context = true → entity = some p.entity) →
              (p.entity, p.value) = (e, v))) := by
  intro e v
  have helig : ∀ p : EVPattern,
      (ev_pattern_eligible env_entities entity p && p.pattern_matches text) = true
      ↔ (p.pattern_matches text = true ∧ (p.entity ∈ env_entities ∨ entity = some p.entity)
          ∧ (p.needs_context = true → entity = some p.entity)) := by
    intro p
    rw [ev_pattern_eligible]
    constructor
    · intro h
      simp only [Bool.and_eq_true, Bool.or_eq_true, Bool.not_eq_true', decide_eq_true_eq,
        beq_iff_eq] at h
      obtain ⟨⟨h1, h2⟩, h3⟩ := h
      refine ⟨h3, ?_, ?_⟩
      · rcases h1 with h1 | h1
        · exact Or.inl h1
        · exact Or.inr h1
      · intro hc
        rcases h2 with h2 | h2
        · rw [hc] at h2; cases h2
        · exact h2
    · rintro ⟨h1, h2, h3⟩
      simp only [Bool.and_eq_true, Bool.or_eq_true, Bool.not_eq_true', decide_eq_true_eq,
        beq_iff_eq]
      refine ⟨⟨?_, ?_⟩, h1⟩
      · rcases h2 with h2 | h2
        · exact Or.inl h2
        · exact Or.inr h2
      · by_cases hc : p.needs_context = true
        · exact Or.inr (h3 hc)
        · exact Or.inl (Bool.not_eq_true _ ▸ hc)
  have hmatch : ∀ (l : List (String × String)),
      ((match l with
        | [(e1, v1)] => some (e1, v1)
        | _ => none) = some (e, v)) ↔ l = [(e, v)] := by
    intro l
    rcases l with _ | ⟨⟨e1, v1⟩, _ | ⟨q, tl⟩⟩
    · simp
    · simp
    · simp
  have hchar : EntityValueMapper.run patterns env_entities entity text = some (e, v)
      ↔ ((patterns.filter (fun p =>
          ev_pattern_eligible env_entities entity p && p.pattern_matches text)).map
            (fun p => (p.entity, p.value))).dedup = [(e, v)] := by
    rw [EntityValueMapper.run]
    exact hmatch _
  rw [hchar, dedup_eq_singleton_iff]
  constructor
  · rintro ⟨hmem, hall⟩
    obtain ⟨p, hp, hpe⟩ := List.mem_map.mp hmem
    obtain ⟨hp1, hp2⟩ := List.mem_filter.mp hp
    obtain ⟨hm, helig1, helig2⟩ := (helig p).mp hp2
    constructor
    · exact ⟨p, hp1, (Prod.mk.injEq _ _ _ _).mp hpe |>.1, (Prod.mk.injEq _ _ _ _).mp hpe |>.2,
        hm, helig1, helig2⟩
    · intro q hq hqm hqf hqc
      exact hall (q.entity, q.value) (List.mem_map.mpr
        ⟨q, List.mem_filter.mpr ⟨hq, (helig q).mpr ⟨hqm, hqf, hqc⟩⟩, rfl⟩)
  · rintro ⟨⟨p, hp, hpe, hpv, hm, hf, hc⟩, huni⟩
    constructor
    · exact List.mem_map.mpr ⟨p, List.mem_filter.mpr ⟨hp, (helig p).mpr ⟨hm, hf, hc⟩⟩,
        by rw [hpe, hpv]⟩
    · rintro ⟨e2, v2⟩ hy
      obtain ⟨q, hq, hqe⟩ := List.mem_map.mp hy
      obtain ⟨hq1, hq2⟩ := List.mem_filter.mp hq
      obtain ⟨hqm, hqf, hqc⟩ := (helig q).mp hq2
      rw [← hqe]
      exact huni q hq1 hqm hqf hqc

/-- Concrete instantiation of `entity_value_mapper_spec`, mirroring the
spec's example: synonym `"it"` is ambiguous between a pronoun value and a
country value without entity context, and resolves with context
`"country"`. -/
theorem entity_value_mapper_spec_witness :
    ∀ e v, EntityValueMapper.run
        [EVPattern.mk "pronoun" "PRONOUN" (fun t => t == "it") true,
         EVPattern.mk "country" "COUNTRY_IT" (fun t => t == "it") true]
        ["pronoun", "country"] (some "country") "it" = some (e, v)
      ↔ ((∃ p ∈ [EVPattern.mk "pronoun" "PRONOUN" (fun t => t == "it") true,
            EVPattern.mk "country" "COUNTRY_IT" (fun t => t == "it") true],
            p.entity = e ∧ p.value = v ∧ p.pattern_matches "it" = true
            ∧ (p.entity ∈ ["pronoun", "country"] ∨ some "country" = some p.entity)
            ∧ (p.needs_context = true → some "country" = some p.entity))
          ∧ (∀ p ∈ [EVPattern.mk "pronoun" "PRONOUN" (fun t => t == "it") true,
              EVPattern.mk "country" "COUNTRY_IT" (fun t => t == "it") true],
              p.pattern_matches "it" = true →
              (p.entity ∈ ["pronoun", "country"] ∨ some "country" = some p.entity) →
              (p.needs_context = true → some "country" = some p.entity) →
              (p.entity, p.value) = (e, v))) :=
  entity_value_mapper_spec
    [EVPattern.mk "pronoun" "PRONOUN" (fun t => t == "it") true,
     EVPattern.mk "country" "COUNTRY_IT" (fun t => t == "it") true]
    ["pronoun", "country"] (some "country") "it"

/-- `ExpressionUsage` from `pipeline_nlu.py`. -/
inductive ExpressionUsage
  | ADD_SCORES
  | PERFECT_MATCH
  | FILTER_TOPK
deriving DecidableEq, Repr

/-- `NLUPipelineElement` from `pipeline_nlu.py`, with the wrapped NLU's `run`
method as a function from utterance and intent filter to an `NLUResult`. -/
structure NLUPipelineElement where
  run : String → List String → NLUResult
  use_expressions : Bool
  use_entities : Bool
  expression_usage : ExpressionUsage
  expression_top_k : ℕ

/-- The `BotEnv` lookups used by `PipelineNLU.run`: all intent ids,
`nl_expressions(intent_filter)` and `intents(nl_expression_filter)`. -/
structure BotEnv where
  intents : List String
  nl_expressions : List String → List String
  intents_for_expressions : List String → List String

/-- The state threaded through the element loop of `PipelineNLU.run`.
`score_keys`/`scores` model the `defaultdict(list)` `expression_scores`:
insertion-ordered keys plus a total map to score lists. -/
structure PipelineState where
  perfect_expression : Option String
  score_keys : List String
  scores : String → List ℚ
  confidence_thresholds : List ℚ
  entities : Finset String
  curr_intent_filter : List String

/-- `expression_scores[id].append(q)`. -/
def scores_add (st : PipelineState) (id : String) (q : ℚ) : PipelineState :=
  { st with
    score_keys := if id ∈ st.score_keys then st.score_keys else st.score_keys ++ [id],
    scores := fun k => if k = id then st.scores k ++ [q] else st.scores k }

/-- One iteration of the element loop of `PipelineNLU.run`. -/
def pipeline_step (env : BotEnv) (utterance : String) (st : PipelineState)
    (element : NLUPipelineElement) : PipelineState :=
  if (!element.use_expressions) && (!element.use_entities) then st
  else if st.perfect_expression.isSome && (!element.use_entities) then st
  else
    let res := element.run utterance st.curr_intent_filter
    let st1 :=
      if element.use_expressions && st.perfect_expression.isNone then
        match element.expression_usage with
        | ExpressionUsage.ADD_SCORES =>
            let st' := res.expression_ranking.foldl
              (fun acc s => scores_add acc s.ref_id s.score) st
            { st' with confidence_thresholds :=
                st'.confidence_thresholds ++ [res.confidence_threshold] }
        | ExpressionUsage.PERFECT_MATCH =>
            match res.expression_ranking with
            | [] => st
            | top :: _ =>
                if 1 ≤ top.score then { st with perfect_expression := some top.ref_id }
                else st
        | ExpressionUsage.FILTER_TOPK =>
            { st with curr_intent_filter :=
                (env.intents_for_expressions
                  ((res.expression_ranking.take element.expression_top_k).map
                    (fun s => s.ref_id))) }
      else st
    if element.use_entities then { st1 with entities := st1.entities ∪ res.entities }
    else st1

/-- `np.mean` on a list of rationals (sum divided by length; the analysed
code paths only evaluate it on non-empty lists). -/
def list_mean (l : List ℚ) : ℚ := l.sum / l.length

/-- `sort_expression_ranking` from `nlu.py`: stable sort by score
descending. -/
def sort_expression_ranking (expression_ranking : List RankingScore) : List RankingScore :=
  expression_ranking.insertionSort (fun a b => b.score ≤ a.score)

/-- The state `PipelineNLU.run` starts its element loop from. -/
def initial_pipeline_state (intent_filter0 : List String) : PipelineState :=
  PipelineState.mk none [] (fun _ => []) [] ∅ intent_filter0

/-- `PipelineNLU.run` from `pipeline_nlu.py` (`intent_filter = none` models
Python `None`). -/
def PipelineNLU.run (env : BotEnv) (elements : List NLUPipelineElement)
    (utterance : String) (intent_filter : Option (List String)) : NLUResult :=
  match (elements.foldl (pipeline_step env utterance)
      (initial_pipeline_state (intent_filter.getD env.intents))).perfect_expression with
  | some pe =>
      NLUResult.mk utterance
        (complete_ranking [RankingScore.mk pe 1]
          (env.nl_expressions (intent_filter.getD env.intents)) 0)
        1
        (elements.foldl (pipeline_step env utterance)
          (initial_pipeline_state (intent_filter.getD env.intents))).entities
  | none =>
      NLUResult.mk utterance
        (complete_ranking
          (sort_expression_ranking
            ((elements.foldl (pipeline_step env utterance)
                (initial_pipeline_state (intent_filter.getD env.intents))).score_keys.map
              (fun i => RankingScore.mk i (list_mean
                ((elements.foldl (pipeline_step env utterance)
                  (initial_pipeline_state (intent_filter.getD env.intents))).scores i)))))
          (env.nl_expressions (intent_filter.getD env.intents)) 0)
        (list_mean (elements.foldl (pipeline_step env utterance)
          (initial_pipeline_state (intent_filter.getD env.intents))).confidence_thresholds)
        (elements.foldl (pipeline_step env utterance)
          (initial_pipeline_state (intent_filter.getD env.intents))).entities

/-- An element that contributes no entities is skipped outright once a
perfect expression is set: the pipeline state is unchanged. -/
theorem pipeline_step_skip (env : BotEnv) (u : String) (st : PipelineState)
    (el : NLUPipelineElement) (hue : el.use_entities = false)
    (hp : st.perfect_expression.isSome = true) :
    pipeline_step env u st el = st := by
  cases hb : el.use_expressions <;> simp [pipeline_step, hue, hp, hb]

/-- Once set, the perfect expression survives every later pipeline step. -/
theorem pipeline_step_perfect_persist (env : BotEnv) (u : String) (st : PipelineState)
    (el : NLUPipelineElement) (x : String) (h : st.perfect_expression = some x) :
    (pipeline_step env u st el).perfect_expression = some x := by
  rw [pipeline_step]
  by_cases h1 : ((!el.use_expressions) && (!el.use_entities)) = true
  · rw [if_pos h1]; exact h
  · rw [if_neg h1]
    by_cases h2 : (st.perfect_expression.isSome && (!el.use_entities)) = true
    · rw [if_pos h2]; exact h
    · rw [if_neg h2]
      have hc : (el.use_expressions && st.perfect_expression.isNone) = false := by
        rw [h]; simp
      simp only [hc]
      by_cases h3 : el.use_entities = true
      · simp only [if_pos h3, Bool.false_eq_true, if_false]; exact h
      · simp only [Bool.false_eq_true, if_false, if_neg h3]; exact h

/-- Once set, the perfect expression survives the rest of the fold. -/
theorem pipeline_foldl_perfect_persist (env : BotEnv) (u : String) (x : String) :
    ∀ (els : List NLUPipelineElement) (st : PipelineState),
      st.perfect_expression = some x →
      (els.foldl (pipeline_step env u) st).perfect_expression = some x := by
  intro els
  induction els with
  | nil => intro st h; exact h
  | cons el els ih =>
    intro st h
    exact ih _ (pipeline_step_perfect_persist env u st el x h)

/-- A `PERFECT_MATCH` element whose top-ranked expression scores at least 1
sets the perfect expression. -/
theorem pipeline_step_perfect_trigger (env : BotEnv) (u : String) (st : PipelineState)
    (el : NLUPipelineElement) (hn : st.perfect_expression = none)
    (huse : el.use_expressions = true)
    (husage : el.expression_usage = ExpressionUsage.PERFECT_MATCH)
    (e : String) (sc : ℚ) (rest : List RankingScore)
    (hrank : (el.run u st.curr_intent_filter).expression_ranking
        = RankingScore.mk e sc :: rest)
    (hsc : 1 ≤ sc) :
    (pipeline_step env u st el).perfect_expression = some e := by
  rw [pipeline_step]
  rw [if_neg (by simp [huse])]
  rw [if_neg (by simp [hn])]
  simp only [huse, hn, husage, hrank, Option.isNone_none, Bool.and_true, Bool.and_self,
    if_true, if_pos hsc]
  by_cases h3 : el.use_entities = true
  · simp only [if_pos h3]
  · simp only [if_neg h3]

/-- **C4.** If, with no earlier perfect match, a `PERFECT_MATCH` element's
ranking (on the intent filter current at that point) has a top expression
scoring at least 1, then the whole pipeline returns exactly that expression
at score 1 with confidence threshold 1, every other expression of the filter
completed to score 0 — whatever the later elements are — and any later
element not flagged to contribute entities is skipped without effect once a
perfect match is set. -/
theorem pipeline_nlu_perfect_match_spec (env : BotEnv)
    (pre post : List NLUPipelineElement) (elem : NLUPipelineElement)
    (utterance : String) (intent_filter : Option (List String))
    (e : String) (sc : ℚ) (rest : List RankingScore)
    (hpre : (pre.foldl (pipeline_step env utterance)
        (initial_pipeline_state (intent_filter.getD env.intents))).perfect_expression = none)
    (huse : elem.use_expressions = true)
    (husage : elem.expression_usage = ExpressionUsage.PERFECT_MATCH)
    (hrank : (elem.run utterance (pre.foldl (pipeline_step env utterance)
          (initial_pipeline_state (intent_filter.getD env.intents))).curr_intent_filter).expression_ranking
        = RankingScore.mk e sc :: rest)
    (hsc : 1 ≤ sc) :
    (PipelineNLU.run env (pre ++ elem :: post) utterance intent_filter).expression_ranking
        = complete_ranking [RankingScore.mk e 1]
            (env.nl_expressions (intent_filter.getD env.intents)) 0
    ∧ (PipelineNLU.run env (pre ++ elem :: post) utterance intent_filter).confidence_threshold
        = 1
    ∧ (∀ s ∈ (PipelineNLU.run env (pre ++ elem :: post) utterance
          intent_filter).expression_ranking, s.ref_id ≠ e → s.score = 0)
    ∧ (e ∈ env.nl_expressions (intent_filter.getD env.intents) →
        RankingScore.mk e 1 ∈ (PipelineNLU.run env (pre ++ elem :: post) utterance
          intent_filter).expression_ranking)
    ∧ (∀ (el : NLUPipelineElement) (st : PipelineState), el.use_entities = false →
        st.perfect_expression.isSome = true → pipeline_step env utterance st el = st) := by
  have hperf : ((pre ++ elem :: post).foldl (pipeline_step env utterance)
      (initial_pipeline_state (intent_filter.getD env.intents))).perfect_expression
      = some e := by
    rw [List.foldl_append, List.foldl_cons]
    exact pipeline_foldl_perfect_persist env utterance e post _
      (pipeline_step_perfect_trigger env utterance _ elem hpre huse husage e sc rest hrank hsc)
  have hrun : PipelineNLU.run env (pre ++ elem :: post) utterance intent_filter
      = NLUResult.mk utterance
          (complete_ranking [RankingScore.mk e 1]
            (env.nl_expressions (intent_filter.getD env.intents)) 0)
          1
          ((pre ++ elem :: post).foldl (pipeline_step env utterance)
            (initial_pipeline_state (intent_filter.getD env.intents))).entities := by
    rw [PipelineNLU.run, hperf]
  refine ⟨by rw [hrun], by rw [hrun], ?_, ?_,
    fun el st hue hp => pipeline_step_skip env utterance st el hue hp⟩
  · intro s hs hne
    rw [hrun] at hs
    simp only at hs
    rw [complete_ranking] at hs
    rcases List.mem_append.mp hs with hs' | hs'
    · have := (List.mem_filter.mp hs').1
      rcases List.mem_singleton.mp this with rfl
      exact absurd rfl hne
    · exact (add_missing_entry_shape 0 _ _ s hs').1
  · intro hin
    rw [hrun]
    simp only
    rw [complete_ranking]
    have hkept : ([RankingScore.mk e 1] : List RankingScore).filter
        (fun s => decide (s.ref_id ∈ env.nl_expressions (intent_filter.getD env.intents)))
        = [RankingScore.mk e 1] := by
      rw [List.filter_eq_self]
      intro a ha
      rcases List.mem_singleton.mp ha with rfl
      exact decide_eq_true hin
    rw [hkept]
    exact List.mem_append.mpr (Or.inl (List.mem_singleton_self _))

/-- Witness environment: intent `i1` with expressions `c` and `d`. -/
def pw_env : BotEnv := BotEnv.mk ["i1"] (fun _ => ["c", "d"]) (fun _ => ["i1"])

/-- Witness element: a `PERFECT_MATCH` ranker returning expression `c` at
score 1. -/
def pw_elemA : NLUPipelineElement :=
  NLUPipelineElement.mk (fun _ _ => NLUResult.mk "u" [RankingScore.mk "c" 1] 1 ∅)
    true false ExpressionUsage.PERFECT_MATCH 15

/-- Witness element: a later `ADD_SCORES` ranker that would report expression
`d` at score 5. -/
def pw_elemB : NLUPipelineElement :=
  NLUPipelineElement.mk (fun _ _ => NLUResult.mk "u" [RankingScore.mk "d" 5] 1 ∅)
    true false ExpressionUsage.ADD_SCORES 15

/-- Concrete instantiation of `pipeline_nlu_perfect_match_spec`: a perfect
match on `c` before an `ADD_SCORES` element scoring `d`. -/
theorem pipeline_nlu_perfect_match_spec_witness :
    (([] : List NLUPipelineElement).foldl (pipeline_step pw_env "u")
        (initial_pipeline_state ((none : Option (List String)).getD
          pw_env.intents))).perfect_expression = none
    ∧ pw_elemA.use_expressions = true
    ∧ pw_elemA.expression_usage = ExpressionUsage.PERFECT_MATCH
    ∧ (pw_elemA.run "u" (([] : List NLUPipelineElement).foldl (pipeline_step pw_env "u")
          (initial_pipeline_state ((none : Option (List String)).getD
            pw_env.intents))).curr_intent_filter).expression_ranking
        = RankingScore.mk "c" 1 :: []
    ∧ (1 : ℚ) ≤ 1
    ∧ ((PipelineNLU.run pw_env ([] ++ pw_elemA :: [pw_elemB]) "u" none).expression_ranking
          = complete_ranking [RankingScore.mk "c" 1]
              (pw_env.nl_expressions ((none : Option (List String)).getD pw_env.intents)) 0
        ∧ (PipelineNLU.run pw_env ([] ++ pw_elemA :: [pw_elemB]) "u"
            none).confidence_threshold = 1
        ∧ (∀ s ∈ (PipelineNLU.run pw_env ([] ++ pw_elemA :: [pw_elemB]) "u"
            none).expression_ranking, s.ref_id ≠ "c" → s.score = 0)
        ∧ ("c" ∈ pw_env.nl_expressions ((none : Option (List String)).getD pw_env.intents) →
            RankingScore.mk "c" 1 ∈ (PipelineNLU.run pw_env ([] ++ pw_elemA :: [pw_elemB])
              "u" none).expression_ranking)
        ∧ (∀ (el : NLUPipelineElement) (st : PipelineState), el.use_entities = false →
            st.perfect_expression.isSome = true → pipeline_step pw_env "u" st el = st)) :=
  ⟨rfl, rfl, rfl, rfl, le_refl 1,
    pipeline_nlu_perfect_match_spec pw_env [] [pw_elemB] pw_elemA "u" none "c" 1 []
      rfl rfl rfl rfl (le_refl 1)⟩

/-- Whether an element, reached in state `st`, makes an `ADD_SCORES`
contribution: it uses expressions, no perfect expression is set yet, and its
usage is `ADD_SCORES` (such an element is never skipped). -/
def contributes (st : PipelineState) (el : NLUPipelineElement) : Bool :=
  el.use_expressions && st.perfect_expression.isNone
    && (el.expression_usage == ExpressionUsage.ADD_SCORES)

/-- The scores reported for expression `id` by the `ADD_SCORES` elements of
`els`, along the run-time trace of states starting at `st`: an element
contributes exactly the scores of its ranking entries for `id` (nothing —
not zero — when its ranking has no entry for `id`). -/
def trace_contributions (env : BotEnv) (utterance : String) (id : String) :
    PipelineState → List NLUPipelineElement → List ℚ
  | _, [] => []
  | st, el :: els =>
      (if contributes st el then
        ((el.run utterance st.curr_intent_filter).expression_ranking.filter
          (fun s => s.ref_id == id)).map (fun s => s.score)
      else [])
      ++ trace_contributions env utterance id (pipeline_step env utterance st el) els

/-- The confidence thresholds reported by the `ADD_SCORES` elements of `els`
along the run-time trace of states starting at `st`. -/
def trace_thresholds (env : BotEnv) (utterance : String) :
    PipelineState → List NLUPipelineElement → List ℚ
  | _, [] => []
  | st, el :: els =>
      (if contributes st el then
        [(el.run utterance st.curr_intent_filter).confidence_threshold]
      else [])
      ++ trace_thresholds env utterance (pipeline_step env utterance st el) els

/-- Folding `scores_add` over a ranking appends, per expression id, exactly
the scores of the ranking's entries for that id, registers the id as a key
iff it has an entry, and leaves every other state field unchanged. -/
theorem foldl_scores_add (ranking : List RankingScore) :
    ∀ (st : PipelineState) (id : String),
      ((ranking.foldl (fun acc s => scores_add acc s.ref_id s.score) st).scores id
        = st.scores id ++ (ranking.filter (fun s => s.ref_id == id)).map (fun s => s.score))
      ∧ (id ∈ (ranking.foldl (fun acc s => scores_add acc s.ref_id s.score) st).score_keys
          ↔ id ∈ st.score_keys ∨ (ranking.filter (fun s => s.ref_id == id)) ≠ [])
      ∧ (ranking.foldl (fun acc s => scores_add acc s.ref_id s.score) st).confidence_thresholds
          = st.confidence_thresholds
      ∧ (ranking.foldl (fun acc s => scores_add acc s.ref_id s.score) st).perfect_expression
          = st.perfect_expression
      ∧ (ranking.foldl (fun acc s => scores_add acc s.ref_id s.score) st).curr_intent_filter
          = st.curr_intent_filter
      ∧ (ranking.foldl (fun acc s => scores_add acc s.ref_id s.score) st).entities
          = st.entities
      ∧ (st.score_keys.Nodup →
          (ranking.foldl (fun acc s => scores_add acc s.ref_id s.score) st).score_keys.Nodup) := by
  induction ranking with
  | nil =>
    intro st id
    simp
  | cons s rest ih =>
    intro st id
    rw [List.foldl_cons]
    obtain ⟨ih1, ih2, ih3, ih4, ih5, ih6, ih7⟩ := ih (scores_add st s.ref_id s.score) id
    refine ⟨?_, ?_, ?_, ?_, ?_, ?_, ?_⟩
    · rw [ih1]
      by_cases hid : s.ref_id = id
      · subst hid
        simp only [scores_add, if_pos rfl, List.filter_cons, beq_self_eq_true, if_true,
          List.map_cons]
        rw [List.append_assoc]
        rfl
      · have hbeq : (s.ref_id == id) = false := beq_eq_false_iff_ne.mpr hid
        have hiff : ¬(id = s.ref_id) := fun h => hid h.symm
        simp only [scores_add, if_neg hiff, List.filter_cons, hbeq, Bool.false_eq_true,
          if_false]
    · rw [ih2]
      have hkeys : id ∈ (scores_add st s.ref_id s.score).score_keys
          ↔ id ∈ st.score_keys ∨ id = s.ref_id := by
        rw [scores_add]
        by_cases hmem : s.ref_id ∈ st.score_keys
        · simp only [if_pos hmem]
          constructor
          · exact Or.inl
          · rintro (h | rfl)
            · exact h
            · exact hmem
        · simp only [if_neg hmem, List.mem_append, List.mem_singleton]
      rw [hkeys]
      by_cases hid : s.ref_id = id
      · subst hid
        simp [List.filter_cons]
      · have hbeq : (s.ref_id == id) = false := beq_eq_false_iff_ne.mpr hid
        simp only [List.filter_cons, hbeq, Bool.false_eq_true, if_false]
        constructor
        · rintro ((h | h) | h)
          · exact Or.inl h
          · exact absurd h.symm hid
          · exact Or.inr h
        · rintro (h | h)
          · exact Or.inl (Or.inl h)
          · exact Or.inr h
    · rw [ih3]; rfl
    · rw [ih4]; rfl
    · rw [ih5]; rfl
    · rw [ih6]; rfl
    · intro hnd
      apply ih7
      rw [scores_add]
      by_cases hmem : s.ref_id ∈ st.score_keys
      · simpa only [if_pos hmem] using hnd
      · simp only [if_neg hmem]
        simp [List.nodup_append, hnd, hmem]

/-- A non-contributing element leaves the score table, its key list and the
collected confidence thresholds untouched. -/
theorem pipeline_step_not_contributing (env : BotEnv) (u : String) (st : PipelineState)
    (el : NLUPipelineElement) (hc : contributes st el = false) :
    (pipeline_step env u st el).scores = st.scores
    ∧ (pipeline_step env u st el).score_keys = st.score_keys
    ∧ (pipeline_step env u st el).confidence_thresholds = st.confidence_thresholds := by
  rw [contributes] at hc
  rw [pipeline_step]
  by_cases h1 : ((!el.use_expressions) && (!el.use_entities)) = true
  · rw [if_pos h1]; exact ⟨rfl, rfl, rfl⟩
  · rw [if_neg h1]
    by_cases h2 : (st.perfect_expression.isSome && (!el.use_entities)) = true
    · rw [if_pos h2]; exact ⟨rfl, rfl, rfl⟩
    · rw [if_neg h2]
      by_cases h3 : (el.use_expressions && st.perfect_expression.isNone) = true
      · obtain ⟨hu, hn⟩ := Bool.and_eq_true _ _ |>.mp h3
        cases husage : el.expression_usage with
        | ADD_SCORES =>
          exfalso
          rw [husage] at hc
          simp [hu, hn] at hc
        | PERFECT_MATCH =>
          simp only [h3, if_true, husage]
          cases hr : (el.run u st.curr_intent_filter).expression_ranking with
          | nil =>
            simp only [hr]
            by_cases h4 : el.use_entities = true
            · simp [h4]
            · simp [h4]
          | cons top tl =>
            simp only [hr]
            by_cases h5 : (1 : ℚ) ≤ top.score
            · simp only [if_pos h5]
              by_cases h4 : el.use_entities = true
              · simp [h4]
              · simp [h4]
            · simp only [if_neg h5]
              by_cases h4 : el.use_entities = true
              · simp [h4]
              · simp [h4]
        | FILTER_TOPK =>
          simp only [h3, if_true, husage]
          by_cases h4 : el.use_entities = true
          · simp [h4]
          · simp [h4]
      · simp only [h3, Bool.false_eq_true, if_false]
        by_cases h4 : el.use_entities = true
        · simp [h4]
        · simp [h4]

/-- A contributing (`ADD_SCORES`) element folds its ranking into the score
table and appends its confidence threshold. -/
theorem pipeline_step_contributing (env : BotEnv) (u : String) (st : PipelineState)
    (el : NLUPipelineElement) (hc : contributes st el = true) :
    (pipeline_step env u st el).scores
        = ((el.run u st.curr_intent_filter).expression_ranking.foldl
            (fun acc s => scores_add acc s.ref_id s.score) st).scores
    ∧ (pipeline_step env u st el).score_keys
        = ((el.run u st.curr_intent_filter).expression_ranking.foldl
            (fun acc s => scores_add acc s.ref_id s.score) st).score_keys
    ∧ (pipeline_step env u st el).confidence_thresholds
        = ((el.run u st.curr_intent_filter).expression_ranking.foldl
            (fun acc s => scores_add acc s.ref_id s.score) st).confidence_thresholds
          ++ [(el.run u st.curr_intent_filter).confidence_threshold] := by
  rw [contributes] at hc
  simp only [Bool.and_eq_true, beq_iff_eq] at hc
  obtain ⟨⟨hu, hn⟩, husage⟩ := hc
  rw [pipeline_step]
  rw [if_neg (by simp [hu])]
  have hsome : st.perfect_expression.isSome = false := by
    cases hp : st.perfect_expression
    · rfl
    · rw [hp] at hn; cases hn
  rw [if_neg (by simp [hsome])]
  simp only [hu, hn, Bool.and_self, if_true, husage]
  by_cases h4 : el.use_entities = true
  · simp [h4]
  · simp [h4]

/-- The final score table, key membership and threshold list of the element
fold are exactly the trace contributions. -/
theorem pipeline_foldl_trace (env : BotEnv) (u : String) (id : String) :
    ∀ (els : List NLUPipelineElement) (st : PipelineState),
      ((els.foldl (pipeline_step env u) st).scores id
        = st.scores id ++ trace_contributions env u id st els)
      ∧ (id ∈ (els.foldl (pipeline_step env u) st).score_keys
          ↔ id ∈ st.score_keys ∨ trace_contributions env u id st els ≠ [])
      ∧ ((els.foldl (pipeline_step env u) st).confidence_thresholds
          = st.confidence_thresholds ++ trace_thresholds env u st els) := by
  intro els
  induction els with
  | nil =>
    intro st
    refine ⟨by simp [trace_contributions], ?_, by simp [trace_thresholds]⟩
    simp [trace_contributions]
  | cons el els ih =>
    intro st
    rw [List.foldl_cons, trace_contributions, trace_thresholds]
    obtain ⟨ih1, ih2, ih3⟩ := ih (pipeline_step env u st el)
    by_cases hc : contributes st el = true
    · obtain ⟨c1, c2, c3⟩ := pipeline_step_contributing env u st el hc
      obtain ⟨f1, f2, f3, _, _, _, _⟩ := foldl_scores_add
        ((el.run u st.curr_intent_filter).expression_ranking) st id
      refine ⟨?_, ?_, ?_⟩
      · rw [ih1, c1, f1, if_pos hc, List.append_assoc]
      · rw [ih2, c2, f2, if_pos hc]
        simp only [ne_eq, List.append_eq_nil, List.map_eq_nil_iff, not_and_or]
        tauto
      · rw [ih3, c3, f3, if_pos hc, List.append_assoc]
    · have hc' : contributes st el = false := Bool.eq_false_iff.mpr hc
      obtain ⟨p1, p2, p3⟩ := pipeline_step_not_contributing env u st el hc'
      refine ⟨?_, ?_, ?_⟩
      · rw [ih1, p1, if_neg hc, List.nil_append]
      · rw [ih2, p2, if_neg hc, List.nil_append]
      · rw [ih3, p3, if_neg hc, List.nil_append]

/-- The insertion-ordered key list of the score table stays duplicate-free
along the fold. -/
theorem pipeline_foldl_keys_nodup (env : BotEnv) (u : String) :
    ∀ (els : List NLUPipelineElement) (st : PipelineState),
      st.score_keys.Nodup → (els.foldl (pipeline_step env u) st).score_keys.Nodup := by
  intro els
  induction els with
  | nil => intro st h; exact h
  | cons el els ih =>
    intro st h
    rw [List.foldl_cons]
    apply ih
    by_cases hc : contributes st el = true
    · rw [(pipeline_step_contributing env u st el hc).2.1]
      exact (foldl_scores_add _ st "").2.2.2.2.2.2 h
    · rw [(pipeline_step_not_contributing env u st el (Bool.eq_false_iff.mpr hc)).2.1]
      exact h

/-- Filtering the per-key ranking built from a duplicate-free key list for
one id gives exactly that id's entry, if the id is a key. -/
theorem map_keys_filter_id (keys : List String) (f : String → ℚ) (id : String)
    (hnd : keys.Nodup) :
    (keys.map (fun i => RankingScore.mk i (f i))).filter (fun s => s.ref_id == id)
      = if id ∈ keys then [RankingScore.mk id (f id)] else [] := by
  induction keys with
  | nil => rfl
  | cons k rest ih =>
    obtain ⟨hk, hrest⟩ := List.nodup_cons.mp hnd
    rw [List.map_cons, List.filter_cons]
    by_cases hkid : k = id
    · subst hkid
      simp only [beq_self_eq_true, if_true]
      rw [ih hrest, if_neg hk]
      simp
    · have hbeq : ((RankingScore.mk k (f k)).ref_id == id) = false :=
        beq_eq_false_iff_ne.mpr hkid
      rw [hbeq]
      simp only [Bool.false_eq_true, if_false]
      rw [ih hrest]
      have hiff : (id ∈ k :: rest) ↔ (id ∈ rest) := by
        simp only [List.mem_cons]
        constructor
        · rintro (h | h)
          · exact absurd h.symm hkid
          · exact h
        · exact Or.inr
      exact (if_congr hiff rfl rfl).symm

/-- Filtering the default entries appended by `add_missing` for one id gives
exactly one default entry, when the id needs one. -/
theorem add_missing_filter_id (c : ℚ) :
    ∀ (ids res_ids : List String) (id : String),
      (add_missing res_ids c ids).filter (fun s => s.ref_id == id)
        = if id ∈ ids ∧ id ∉ res_ids then [RankingScore.mk id c] else [] := by
  intro ids
  induction ids with
  | nil =>
    intro res_ids id
    simp [add_missing]
  | cons id0 rest ih =>
    intro res_ids id
    rw [add_missing]
    by_cases h0 : id0 ∈ res_ids
    · rw [if_pos h0, ih res_ids id]
      by_cases hid : id = id0
      · subst hid
        simp [h0]
      · have hiff : (id ∈ rest ∧ id ∉ res_ids) ↔ (id ∈ id0 :: rest ∧ id ∉ res_ids) := by
          simp only [List.mem_cons]
          tauto
        exact if_congr hiff rfl rfl
    · rw [if_neg h0, List.filter_cons]
      by_cases hid : id = id0
      · subst hid
        simp only [beq_self_eq_true, if_true]
        rw [ih (res_ids ++ [id]) id]
        have hno : ¬(id ∈ rest ∧ id ∉ res_ids ++ [id]) := by
          rintro ⟨_, hni⟩
          exact hni (List.mem_append.mpr (Or.inr (List.mem_singleton_self _)))
        rw [if_neg hno, if_pos ⟨List.mem_cons_self _ _, h0⟩]
      · have hbeq : ((RankingScore.mk id0 c).ref_id == id) = false :=
          beq_eq_false_iff_ne.mpr (fun h => hid h.symm)
        rw [hbeq]
        simp only [Bool.false_eq_true, if_false]
        rw [ih (res_ids ++ [id0]) id]
        have hcond : (id ∈ rest ∧ id ∉ res_ids ++ [id0])
            ↔ (id ∈ id0 :: rest ∧ id ∉ res_ids) := by
          simp only [List.mem_append, List.mem_cons, List.mem_singleton, not_or]
          tauto
        exact if_congr hcond rfl rfl

/-- **C9.** When the pipeline ends with no perfect match, each expression of
the expression filter has exactly one entry in the final ranking; its score
is the arithmetic mean of the scores the contributing `ADD_SCORES` elements
actually reported for it (elements that did not list it contribute nothing),
or `0` via ranking completion when no element listed it; and the pipeline
confidence threshold is the mean of the contributing elements' confidence
thresholds. -/
theorem pipeline_nlu_mean_scores_spec (env : BotEnv) (elements : List NLUPipelineElement)
    (utterance : String) (intent_filter : Option (List String))
    (hnp : (elements.foldl (pipeline_step env utterance)
        (initial_pipeline_state (intent_filter.getD env.intents))).perfect_expression
        = none) :
    (∀ id ∈ env.nl_expressions (intent_filter.getD env.intents),
      ((PipelineNLU.run env elements utterance intent_filter).expression_ranking.filter
          (fun s => s.ref_id == id)).map (fun s => s.score)
        = [if trace_contributions env utterance id
              (initial_pipeline_state (intent_filter.getD env.intents)) elements = []
           then 0
           else list_mean (trace_contributions env utterance id
              (initial_pipeline_state (intent_filter.getD env.intents)) elements)])
    ∧ (PipelineNLU.run env elements utterance intent_filter).confidence_threshold
        = list_mean (trace_thresholds env utterance
            (initial_pipeline_state (intent_filter.getD env.intents)) elements) := by
  have hrun : PipelineNLU.run env elements utterance intent_filter
      = NLUResult.mk utterance
          (complete_ranking
            (sort_expression_ranking
              ((elements.foldl (pipeline_step env utterance)
                  (initial_pipeline_state (intent_filter.getD env.intents))).score_keys.map
                (fun i => RankingScore.mk i (list_mean
                  ((elements.foldl (pipeline_step env utterance)
                    (initial_pipeline_state (intent_filter.getD env.intents))).scores i)))))
            (env.nl_expressions (intent_filter.getD env.intents)) 0)
          (list_mean (elements.foldl (pipeline_step env utterance)
            (initial_pipeline_state (intent_filter.getD env.intents))).confidence_thresholds)
          (elements.foldl (pipeline_step env utterance)
            (initial_pipeline_state (intent_filter.getD env.intents))).entities := by
    rw [PipelineNLU.run, hnp]
  constructor
  · intro id hin
    obtain ⟨t1, t2, _⟩ := pipeline_foldl_trace env utterance id elements
      (initial_pipeline_state (intent_filter.getD env.intents))
    have hinit_scores : (initial_pipeline_state
        (intent_filter.getD env.intents)).scores id = [] := rfl
    have hinit_keys : id ∈ (initial_pipeline_state
        (intent_filter.getD env.intents)).score_keys ↔ False := by
      simp [initial_pipeline_state]
    rw [hinit_scores, List.nil_append] at t1
    rw [hinit_keys, false_or] at t2
    have hnd : (elements.foldl (pipeline_step env utterance)
        (initial_pipeline_state (intent_filter.getD env.intents))).score_keys.Nodup :=
      pipeline_foldl_keys_nodup env utterance elements _ List.nodup_nil
    have hA := map_keys_filter_id
      (elements.foldl (pipeline_step env utterance)
        (initial_pipeline_state (intent_filter.getD env.intents))).score_keys
      (fun i => list_mean ((elements.foldl (pipeline_step env utterance)
        (initial_pipeline_state (intent_filter.getD env.intents))).scores i)) id hnd
    have hsortperm := (List.perm_insertionSort
      (fun a b => b.score ≤ a.score)
      ((elements.foldl (pipeline_step env utterance)
          (initial_pipeline_state (intent_filter.getD env.intents))).score_keys.map
        (fun i => RankingScore.mk i (list_mean
          ((elements.foldl (pipeline_step env utterance)
            (initial_pipeline_state (intent_filter.getD env.intents))).scores i))))).filter
      (fun s => s.ref_id == id)
    rw [hrun]
    simp only
    rw [complete_ranking, List.filter_append]
    have hsw : ∀ (l : List RankingScore),
        (l.filter (fun s => decide (s.ref_id ∈ env.nl_expressions
          (intent_filter.getD env.intents)))).filter (fun s => s.ref_id == id)
        = (l.filter (fun s => s.ref_id == id)).filter (fun s => decide (s.ref_id ∈
            env.nl_expressions (intent_filter.getD env.intents))) := by
      intro l
      rw [List.filter_filter, List.filter_filter]
      apply List.filter_congr
      intro a _
      rw [Bool.and_comm]
    by_cases hk : id ∈ (elements.foldl (pipeline_step env utterance)
        (initial_pipeline_state (intent_filter.getD env.intents))).score_keys
    · have hsfilt : (sort_expression_ranking
          ((elements.foldl (pipeline_step env utterance)
              (initial_pipeline_state (intent_filter.getD env.intents))).score_keys.map
            (fun i => RankingScore.mk i (list_mean
              ((elements.foldl (pipeline_step env utterance)
                (initial_pipeline_state (intent_filter.getD env.intents))).scores i))))).filter
          (fun s => s.ref_id == id)
          = [RankingScore.mk id (list_mean ((elements.foldl (pipeline_step env utterance)
              (initial_pipeline_state (intent_filter.getD env.intents))).scores id))] := by
        rw [hA, if_pos hk] at hsortperm
        exact List.perm_singleton.mp hsortperm
      rw [hsw, hsfilt]
      have hkeptsing : ([RankingScore.mk id (list_mean ((elements.foldl
          (pipeline_step env utterance)
          (initial_pipeline_state (intent_filter.getD env.intents))).scores id))].filter
          (fun s => decide (s.ref_id ∈ env.nl_expressions (intent_filter.getD env.intents))))
          = [RankingScore.mk id (list_mean ((elements.foldl (pipeline_step env utterance)
              (initial_pipeline_state (intent_filter.getD env.intents))).scores id))] := by
        rw [List.filter_eq_self]
        intro a ha
        rcases List.mem_singleton.mp ha with rfl
        exact decide_eq_true hin
      rw [hkeptsing]
      have hres : id ∈ ((sort_expression_ranking
          ((elements.foldl (pipeline_step env utterance)
              (initial_pipeline_state (intent_filter.getD env.intents))).score_keys.map
            (fun i => RankingScore.mk i (list_mean
              ((elements.foldl (pipeline_step env utterance)
                (initial_pipeline_state (intent_filter.getD env.intents))).scores i))))).filter
          (fun s => decide (s.ref_id ∈ env.nl_expressions
            (intent_filter.getD env.intents)))).map (fun s => s.ref_id) := by
        have hmem : RankingScore.mk id (list_mean ((elements.foldl
            (pipeline_step env utterance)
            (initial_pipeline_state (intent_filter.getD env.intents))).scores id))
            ∈ (sort_expression_ranking
              ((elements.foldl (pipeline_step env utterance)
                  (initial_pipeline_state (intent_filter.getD env.intents))).score_keys.map
                (fun i => RankingScore.mk i (list_mean
                  ((elements.foldl (pipeline_step env utterance)
                    (initial_pipeline_state
                      (intent_filter.getD env.intents))).scores i))))) := by
          have : RankingScore.mk id (list_mean ((elements.foldl
              (pipeline_step env utterance)
              (initial_pipeline_state (intent_filter.getD env.intents))).scores id))
              ∈ (sort_expression_ranking
                ((elements.foldl (pipeline_step env utterance)
                    (initial_pipeline_state (intent_filter.getD env.intents))).score_keys.map
                  (fun i => RankingScore.mk i (list_mean
                    ((elements.foldl (pipeline_step env utterance)
                      (initial_pipeline_state
                        (intent_filter.getD env.intents))).scores i))))).filter
                (fun s => s.ref_id == id) := by
            rw [hsfilt]
            exact List.mem_singleton_self _
          exact (List.mem_filter.mp this).1
        exact List.mem_map.mpr ⟨_, List.mem_filter.mpr ⟨hmem, decide_eq_true hin⟩, rfl⟩
      rw [add_missing_filter_id 0 (env.nl_expressions (intent_filter.getD env.intents)) _ id,
        if_neg (by rintro ⟨_, hni⟩; exact hni hres)]
      have htr : trace_contributions env utterance id
          (initial_pipeline_state (intent_filter.getD env.intents)) elements ≠ [] :=
        t2.mp hk
      rw [if_neg htr, List.append_nil, List.map_singleton]
      rw [t1]
    · have hsfilt : (sort_expression_ranking
          ((elements.foldl (pipeline_step env utterance)
              (initial_pipeline_state (intent_filter.getD env.intents))).score_keys.map
            (fun i => RankingScore.mk i (list_mean
              ((elements.foldl (pipeline_step env utterance)
                (initial_pipeline_state (intent_filter.getD env.intents))).scores i))))).filter
          (fun s => s.ref_id == id) = [] := by
        rw [hA, if_neg hk] at hsortperm
        exact List.perm_nil.mp hsortperm
      rw [hsw, hsfilt]
      simp only [List.filter_nil, List.nil_append]
      have hnores : id ∉ ((sort_expression_ranking
          ((elements.foldl (pipeline_step env utterance)
              (initial_pipeline_state (intent_filter.getD env.intents))).score_keys.map
            (fun i => RankingScore.mk i (list_mean
              ((elements.foldl (pipeline_step env utterance)
                (initial_pipeline_state (intent_filter.getD env.intents))).scores i))))).filter
          (fun s => decide (s.ref_id ∈ env.nl_expressions
            (intent_filter.getD env.intents)))).map (fun s => s.ref_id) := by
        intro hmem
        obtain ⟨s, hs, hsid⟩ := List.mem_map.mp hmem
        have hs1 := (List.mem_filter.mp hs).1
        have : s ∈ (sort_expression_ranking
            ((elements.foldl (pipeline_step env utterance)
                (initial_pipeline_state (intent_filter.getD env.intents))).score_keys.map
              (fun i => RankingScore.mk i (list_mean
                ((elements.foldl (pipeline_step env utterance)
                  (initial_pipeline_state
                    (intent_filter.getD env.intents))).scores i))))).filter
            (fun s => s.ref_id == id) :=
          List.mem_filter.mpr ⟨hs1, by rw [hsid]; exact beq_self_eq_true id⟩
        rw [hsfilt] at this
        cases this
      rw [add_missing_filter_id 0 (env.nl_expressions (intent_filter.getD env.intents)) _ id,
        if_pos ⟨hin, hnores⟩]
      have htr : trace_contributions env utterance id
          (initial_pipeline_state (intent_filter.getD env.intents)) elements = [] := by
        by_contra hne
        exact hk (t2.mpr hne)
      rw [if_pos htr, List.map_singleton]
  · obtain ⟨_, _, t3⟩ := pipeline_foldl_trace env utterance "" elements
      (initial_pipeline_state (intent_filter.getD env.intents))
    have hinit : (initial_pipeline_state
        (intent_filter.getD env.intents)).confidence_thresholds = [] := rfl
    rw [hinit, List.nil_append] at t3
    rw [hrun]
    simp only
    rw [t3]

/-- Concrete instantiation of `pipeline_nlu_mean_scores_spec`: a single
`ADD_SCORES` element, no perfect match. -/
theorem pipeline_nlu_mean_scores_spec_witness :
    ((([pw_elemB] : List NLUPipelineElement).foldl (pipeline_step pw_env "u")
        (initial_pipeline_state ((none : Option (List String)).getD
          pw_env.intents))).perfect_expression = none)
    ∧ ((∀ id ∈ pw_env.nl_expressions ((none : Option (List String)).getD pw_env.intents),
        ((PipelineNLU.run pw_env [pw_elemB] "u" none).expression_ranking.filter
            (fun s => s.ref_id == id)).map (fun s => s.score)
          = [if trace_contributions pw_env "u" id
                (initial_pipeline_state ((none : Option (List String)).getD
                  pw_env.intents)) [pw_elemB] = []
             then 0
             else list_mean (trace_contributions pw_env "u" id
                (initial_pipeline_state ((none : Option (List String)).getD
                  pw_env.intents)) [pw_elemB])])
      ∧ (PipelineNLU.run pw_env [pw_elemB] "u" none).confidence_threshold
          = list_mean (trace_thresholds pw_env "u"
              (initial_pipeline_state ((none : Option (List String)).getD
                pw_env.intents)) [pw_elemB])) :=
  ⟨rfl, pipeline_nlu_mean_scores_spec pw_env [pw_elemB] "u" none rfl⟩

/-- `CustomScore` from `models/intent.py`: a perfect score or a float
score. -/
inductive CustomScore
  | PerfectScore
  | FloatScore (value : ℚ)
deriving DecidableEq, Repr

/-- `FloatScore.value` (the source only reads it in the branch where no
intent scored a `PerfectScore`, so every score there is a `FloatScore`). -/
def CustomScore.value : CustomScore → ℚ
  | CustomScore.PerfectScore => 0
  | CustomScore.FloatScore v => v

/-- `isinstance(score, PerfectScore)`. -/
def CustomScore.isPerfect : CustomScore → Bool
  | CustomScore.PerfectScore => true
  | CustomScore.FloatScore _ => false

/-- The keys of a Python dict filled by inserting `intent_id` keys in order
(first occurrence wins). -/
def dict_keys (matchable_intents : List String) : List String :=
  matchable_intents.foldl (fun acc i => if i ∈ acc then acc else acc ++ [i]) []

theorem dict_keys_go_mem :
    ∀ (l acc : List String) (i : String),
      i ∈ l.foldl (fun acc i => if i ∈ acc then acc else acc ++ [i]) acc
        ↔ i ∈ acc ∨ i ∈ l := by
  intro l
  induction l with
  | nil => intro acc i; simp
  | cons a l ih =>
    intro acc i
    rw [List.foldl_cons]
    by_cases ha : a ∈ acc
    · rw [if_pos ha, ih acc i]
      constructor
      · rintro (h | h)
        · exact Or.inl h
        · exact Or.inr (List.mem_cons_of_mem a h)
      · rintro (h | h)
        · exact Or.inl h
        · rcases List.mem_cons.mp h with rfl | h'
          · exact Or.inl ha
          · exact Or.inr h'
    · rw [if_neg ha, ih (acc ++ [a]) i]
      simp only [List.mem_append, List.mem_singleton, List.mem_cons]
      tauto

theorem dict_keys_go_nodup :
    ∀ (l acc : List String), acc.Nodup →
      (l.foldl (fun acc i => if i ∈ acc then acc else acc ++ [i]) acc).Nodup := by
  intro l
  induction l with
  | nil => intro acc h; exact h
  | cons a l ih =>
    intro acc h
    rw [List.foldl_cons]
    by_cases ha : a ∈ acc
    · rw [if_pos ha]; exact ih acc h
    · rw [if_neg ha]
      exact ih (acc ++ [a]) (by simp [List.nodup_append, h, ha])

/-- `DefaultIU._score_matchable_intents` from `default_iu.py`, with the
per-intent computation `_score_matchable_intent` passed as `score_fn` and
the NLU result reduced to its confidence threshold.  If any intent scored a
`PerfectScore`, perfect intents get 1 and all others 0 with threshold 1;
otherwise every intent keeps its `FloatScore` value and the NLU threshold is
used.  The ranking is finally sorted with `sort_intent_ranking`. -/
def score_matchable_intents (env : String → Intent) (st : DialogueState)
    (score_fn : String → CustomScore) (nlu_threshold : ℚ)
    (matchable_intents : List String) : List RankingScore × ℚ :=
  if ((dict_keys matchable_intents).filter (fun i => (score_fn i).isPerfect)).length > 0 then
    (sort_intent_ranking env st ((dict_keys matchable_intents).map (fun i =>
        RankingScore.mk i (if (score_fn i).isPerfect then 1 else 0))), 1)
  else
    (sort_intent_ranking env st ((dict_keys matchable_intents).map (fun i =>
        RankingScore.mk i (score_fn i).value)), nlu_threshold)

/-- **C10.** If at least one matchable intent's custom score is a
`PerfectScore`, every perfect intent's final score is exactly 1, every other
matchable intent's exactly 0 (its float value is discarded), and the batch
confidence threshold is 1; if no intent has a perfect score, every intent
keeps its float value and the NLU confidence threshold is used. -/
theorem score_matchable_intents_spec (env : String → Intent) (st : DialogueState)
    (score_fn : String → CustomScore) (nlu_threshold : ℚ)
    (matchable_intents : List String) :
    ((∃ i ∈ matchable_intents, (score_fn i).isPerfect = true) →
      (score_matchable_intents env st score_fn nlu_threshold matchable_intents).2 = 1
      ∧ ∀ i ∈ matchable_intents,
          (((score_matchable_intents env st score_fn nlu_threshold
              matchable_intents).1.filter (fun s => s.ref_id == i)).map (fun s => s.score))
            = [if (score_fn i).isPerfect then 1 else 0])
    ∧ ((∀ i ∈ matchable_intents, (score_fn i).isPerfect = false) →
      (score_matchable_intents env st score_fn nlu_threshold matchable_intents).2
          = nlu_threshold
      ∧ ∀ i ∈ matchable_intents,
          (((score_matchable_intents env st score_fn nlu_threshold
              matchable_intents).1.filter (fun s => s.ref_id == i)).map (fun s => s.score))
            = [(score_fn i).value]) := by
  have hkm : ∀ i, i ∈ dict_keys matchable_intents ↔ i ∈ matchable_intents := by
    intro i
    rw [dict_keys, dict_keys_go_mem]
    simp
  have hknd : (dict_keys matchable_intents).Nodup :=
    dict_keys_go_nodup matchable_intents [] List.nodup_nil
  constructor
  · intro hex
    obtain ⟨i0, hi0, hp0⟩ := hex
    have hcond : ((dict_keys matchable_intents).filter
        (fun i => (score_fn i).isPerfect)).length > 0 := by
      rw [gt_iff_lt, List.length_pos]
      intro hnil
      have : i0 ∈ (dict_keys matchable_intents).filter (fun i => (score_fn i).isPerfect) :=
        List.mem_filter.mpr ⟨(hkm i0).mpr hi0, hp0⟩
      rw [hnil] at this
      cases this
    rw [score_matchable_intents, if_pos hcond]
    refine ⟨rfl, ?_⟩
    intro i hi
    have hperm := (List.perm_insertionSort
      (fun a b => key_ge (intent_sort_key env st a) (intent_sort_key env st b))
      ((dict_keys matchable_intents).map (fun i =>
        RankingScore.mk i (if (score_fn i).isPerfect then 1 else 0)))).filter
      (fun s => s.ref_id == i)
    rw [map_keys_filter_id _ _ i hknd, if_pos ((hkm i).mpr hi)] at hperm
    rw [sort_intent_ranking]
    rw [List.perm_singleton.mp hperm]
    rfl
  · intro hall
    have hcond : ¬(((dict_keys matchable_intents).filter
        (fun i => (score_fn i).isPerfect)).length > 0) := by
      intro hpos
      rw [gt_iff_lt, List.length_pos] at hpos
      obtain ⟨j, hj⟩ := List.exists_mem_of_ne_nil _ hpos
      obtain ⟨hj1, hj2⟩ := List.mem_filter.mp hj
      rw [hall j ((hkm j).mp hj1)] at hj2
      cases hj2
    rw [score_matchable_intents, if_neg hcond]
    refine ⟨rfl, ?_⟩
    intro i hi
    have hperm := (List.perm_insertionSort
      (fun a b => key_ge (intent_sort_key env st a) (intent_sort_key env st b))
      ((dict_keys matchable_intents).map (fun i =>
        RankingScore.mk i (score_fn i).value))).filter
      (fun s => s.ref_id == i)
    rw [map_keys_filter_id _ _ i hknd, if_pos ((hkm i).mpr hi)] at hperm
    rw [sort_intent_ranking]
    rw [List.perm_singleton.mp hperm]
    rfl

/-- Concrete instantiation of `score_matchable_intents_spec`: intent `a`
has a perfect score, intent `b` a float score. -/
theorem score_matchable_intents_spec_witness :
    ((∃ i ∈ ["a", "b"],
        ((fun i => if i = "a" then CustomScore.PerfectScore
          else CustomScore.FloatScore (3 : ℚ)) i).isPerfect = true) →
      (score_matchable_intents (fun id => Intent.mk id []) (DialogueState.mk [])
          (fun i => if i = "a" then CustomScore.PerfectScore
            else CustomScore.FloatScore (3 : ℚ)) (1 : ℚ) ["a", "b"]).2 = 1
      ∧ ∀ i ∈ ["a", "b"],
          (((score_matchable_intents (fun id => Intent.mk id []) (DialogueState.mk [])
              (fun i => if i = "a" then CustomScore.PerfectScore
                else CustomScore.FloatScore (3 : ℚ)) (1 : ℚ) ["a", "b"]).1.filter
              (fun s => s.ref_id == i)).map (fun s => s.score))
            = [if ((fun i => if i = "a" then CustomScore.PerfectScore
                else CustomScore.FloatScore (3 : ℚ)) i).isPerfect then 1 else 0])
    ∧ ((∀ i ∈ ["a", "b"],
        ((fun i => if i = "a" then CustomScore.PerfectScore
          else CustomScore.FloatScore (3 : ℚ)) i).isPerfect = false) →
      (score_matchable_intents (fun id => Intent.mk id []) (DialogueState.mk [])
          (fun i => if i = "a" then CustomScore.PerfectScore
            else CustomScore.FloatScore (3 : ℚ)) (1 : ℚ) ["a", "b"]).2 = (1 : ℚ)
      ∧ ∀ i ∈ ["a", "b"],
          (((score_matchable_intents (fun id => Intent.mk id []) (DialogueState.mk [])
              (fun i => if i = "a" then CustomScore.PerfectScore
                else CustomScore.FloatScore (3 : ℚ)) (1 : ℚ) ["a", "b"]).1.filter
              (fun s => s.ref_id == i)).map (fun s => s.score))
            = [((fun i => if i = "a" then CustomScore.PerfectScore
                else CustomScore.FloatScore (3 : ℚ)) i).value]) :=
  score_matchable_intents_spec (fun id => Intent.mk id []) (DialogueState.mk [])
    (fun i => if i = "a" then CustomScore.PerfectScore
      else CustomScore.FloatScore (3 : ℚ)) (1 : ℚ) ["a", "b"]

end DialogueBot
